import Mathlib

/-!
Ring buffer (`ring_buffer.c`)

A shallow embedding of the ring buffer of `src/ring_buffer.c`.

* C `int` values are modelled by `Int`.  The only arithmetic the program does on
  them is `index + 1` followed by `% capacity`; with a cursor below `capacity`
  the sum is at most `capacity`, itself an `int`, so it cannot leave the `int`
  range.  `%` is C's truncating remainder, `Int.tmod`.
* Signed overflow is not modelled: the sum `index + 1` is taken in `Int`, which
  agrees with the C sum exactly when `index` is below `INT_MAX`.  For a cursor
  equal to `INT_MAX`, which no call on a buffer with cursors in `[0, capacity)`
  produces, the C program is undefined and the embedding says nothing about it.
* The storage `start` is the list of slots that `calloc` hands back.  Every slot
  access is checked: an index outside the list is the fault `outOfBounds`.
* A remainder with divisor `0` is the fault `divByZero`.
* Allocation is assumed to succeed.
-/

namespace RingBufferC

/-- Undefined behaviour the embedding makes explicit. -/
inductive Fault where
  | divByZero
  | outOfBounds
  deriving DecidableEq

instance {ε α : Type} [DecidableEq ε] [DecidableEq α] : DecidableEq (Except ε α)
  | .ok a, .ok b => if h : a = b then isTrue (by rw [h]) else isFalse (fun e => h (by cases e; rfl))
  | .error a, .error b =>
    if h : a = b then isTrue (by rw [h]) else isFalse (fun e => h (by cases e; rfl))
  | .ok _, .error _ => isFalse (fun e => by cases e)
  | .error _, .ok _ => isFalse (fun e => by cases e)

/-- The C struct `RingBuffer`. -/
structure RingBuffer where
  start : List Int
  capacity : Int
  writeIndex : Int
  readIndex : Int
  deriving DecidableEq

/-- The C operator `a % b` on `int`: truncating remainder, undefined for `b = 0`. -/
def cmod (a b : Int) : Except Fault Int :=
  if b = 0 then .error .divByZero else .ok (Int.tmod a b)

/-- Checked load `start[i]`. -/
def load (start : List Int) (i : Int) : Except Fault Int :=
  if 0 ≤ i ∧ i < start.length then .ok (start.getD i.toNat 0) else .error .outOfBounds

/-- Checked store `start[i] = v`. -/
def store (start : List Int) (i : Int) (v : Int) : Except Fault (List Int) :=
  if 0 ≤ i ∧ i < start.length then .ok (start.set i.toNat v) else .error .outOfBounds

/-- Function `rb_new`: zero-filled storage of `capacity` slots, both cursors at 0. -/
def rb_new (capacity : Int) : RingBuffer :=
  { start := List.replicate capacity.toNat 0
    capacity := capacity
    writeIndex := 0
    readIndex := 0 }

/-- Function `rb_is_full`: `(writeIndex + 1) % capacity == readIndex`.  The sum is
the C sum for `writeIndex` below `INT_MAX`, in particular for every cursor in
`[0, capacity)`; the overflow at `writeIndex = INT_MAX` is not modelled. -/
def rb_is_full (buffer : RingBuffer) : Except Fault Bool := do
  let next ← cmod (buffer.writeIndex + 1) buffer.capacity
  pure (next == buffer.readIndex)

/-- Function `rb_is_empty`: `readIndex == writeIndex`. -/
def rb_is_empty (buffer : RingBuffer) : Bool :=
  buffer.readIndex == buffer.writeIndex

/-- Function `rb_write`: the returned flag and the buffer after the call. -/
def rb_write (buffer : RingBuffer) (value : Int) : Except Fault (Bool × RingBuffer) := do
  if (← rb_is_full buffer) then
    pure (false, buffer)
  else
    let start ← store buffer.start buffer.writeIndex value
    let next ← cmod (buffer.writeIndex + 1) buffer.capacity
    pure (true, { buffer with start := start, writeIndex := next })

/-- Function `rb_read`: `out` is the content of `*out` before the call; the result is the
returned flag, the buffer after the call and the content of `*out` after it. -/
def rb_read (buffer : RingBuffer) (out : Int) : Except Fault (Bool × RingBuffer × Int) := do
  if rb_is_empty buffer then
    pure (false, buffer, out)
  else
    let value ← load buffer.start buffer.readIndex
    let next ← cmod (buffer.readIndex + 1) buffer.capacity
    pure (true, { buffer with readIndex := next }, value)

/-- Function `rb_value_is_garbage`: every slot of an empty buffer is garbage, no slot
of a full one, otherwise the slots outside the range from `readIndex` to
`writeIndex`. -/
def rb_value_is_garbage (buffer : RingBuffer) (index : Int) : Except Fault Bool := do
  if rb_is_empty buffer then
    pure true
  else if (← rb_is_full buffer) then
    pure false
  else
    pure (if buffer.readIndex ≤ buffer.writeIndex
      then decide (index < buffer.readIndex) || decide (index ≥ buffer.writeIndex)
      else decide (index < buffer.readIndex) && decide (index ≥ buffer.writeIndex))

/-! ## Sequences of calls -/

/-- One call made by a client of the buffer. -/
inductive Op where
  | write (value : Int)
  | read
  deriving DecidableEq

/-- What one call returned: the flag, and for a read the content of `*out`
after the call. -/
inductive Event where
  | wrote (value : Int) (ok : Bool)
  | readOut (ok : Bool) (out : Int)
  deriving DecidableEq

/-- Runs the calls in order on `buffer`, with `out` the variable every read
stores into; returns the events in call order, the final buffer and `out`. -/
def rb_run (buffer : RingBuffer) (out : Int) : List Op → Except Fault (List Event × RingBuffer × Int)
  | [] => pure ([], buffer, out)
  | Op.write v :: ops => do
    let (ok, buffer1) ← rb_write buffer v
    let (evs, buffer2, out2) ← rb_run buffer1 out ops
    pure (Event.wrote v ok :: evs, buffer2, out2)
  | Op.read :: ops => do
    let (ok, buffer1, out1) ← rb_read buffer out
    let (evs, buffer2, out2) ← rb_run buffer1 out1 ops
    pure (Event.readOut ok out1 :: evs, buffer2, out2)

/-- Values of the writes that returned `true`, in call order. -/
def written : List Event → List Int
  | [] => []
  | Event.wrote v true :: evs => v :: written evs
  | _ :: evs => written evs

/-- Values delivered by the reads that returned `true`, in call order. -/
def delivered : List Event → List Int
  | [] => []
  | Event.readOut true x :: evs => x :: delivered evs
  | _ :: evs => delivered evs

/-! ## State predicates used by the statements -/

/-- Both cursors lie in `[0, capacity)`. -/
def InRange (b : RingBuffer) : Prop :=
  0 ≤ b.writeIndex ∧ b.writeIndex < b.capacity ∧ 0 ≤ b.readIndex ∧ b.readIndex < b.capacity

/-- The storage has exactly `capacity` slots, as allocated by `rb_new`. -/
def Shaped (b : RingBuffer) : Prop :=
  (b.start.length : Int) = b.capacity

instance (b : RingBuffer) : Decidable (InRange b) := by
  unfold InRange; infer_instance

instance (b : RingBuffer) : Decidable (Shaped b) := by
  unfold Shaped; infer_instance

/-- Number of unread elements computed from the cursors:
`(writeIndex - readIndex) mod capacity`. -/
def rb_count (b : RingBuffer) : Int :=
  (b.writeIndex - b.readIndex) % b.capacity

/-- The unread values, oldest first: the slots at `(readIndex + j) mod capacity`
for `j = 0 .. rb_count - 1`. -/
def rb_contents (b : RingBuffer) : List Int :=
  (List.range (rb_count b).toNat).map
    (fun (j : Nat) => b.start.getD ((b.readIndex + (j : Int)) % b.capacity).toNat 0)

/-! ## The loops of `main` -/

/-- The loop `while (rb_read(buffer, &value)) { ... }` of `main`, run for at most
`fuel` calls of `rb_read`: the number of calls that returned `true`, then the
buffer and `value` when a call returned `false`; `none` when the fuel ran out
first. -/
def read_until_empty : Nat → RingBuffer → Int → Except Fault (Option (Nat × RingBuffer × Int))
  | 0, _, _ => pure none
  | fuel + 1, buffer, value => do
    let (ok, buffer1, value1) ← rb_read buffer value
    if ok then
      let rest ← read_until_empty fuel buffer1 value1
      pure (rest.map (fun r => (r.1 + 1, r.2)))
    else
      pure (some (0, buffer1, value1))

/-- The loop `for (int i = 4; rb_write(buffer, i); i++) { ... }` of `main`, run for
at most `fuel` calls of `rb_write`, writing the values `i`, `i + 1`, ...: the
number of calls that returned `true` and the buffer when a call returned
`false`; `none` when the fuel ran out first. -/
def write_until_full : Nat → RingBuffer → Int → Except Fault (Option (Nat × RingBuffer))
  | 0, _, _ => pure none
  | fuel + 1, buffer, i => do
    let (ok, buffer1) ← rb_write buffer i
    if ok then
      let rest ← write_until_full fuel buffer1 (i + 1)
      pure (rest.map (fun r => (r.1 + 1, r.2)))
    else
      pure (some (0, buffer1))

/-! ## Reference models the code is compared with -/

/-- Bounded FIFO queue holding at most `capacity - 1` values: a write appends
the value when the queue holds fewer than `capacity - 1` values and is rejected
otherwise. -/
def bq_write (capacity : Int) (q : List Int) (v : Int) : Bool × List Int :=
  if (q.length : Int) < capacity - 1 then (true, q ++ [v]) else (false, q)

/-- Bounded FIFO queue: a read removes and delivers the head when the queue is
non-empty and is rejected, leaving the output as it was, otherwise. -/
def bq_read (q : List Int) (out : Int) : Bool × List Int × Int :=
  match q with
  | [] => (false, [], out)
  | x :: rest => (true, rest, x)

/-- Bookkeeping of which slots hold a value that was written and not yet read:
runs the calls like `rb_run` and, beside the buffer, keeps one flag per slot,
set by an accepted write at the slot it stored into and cleared by an accepted
read at the slot it loaded from. -/
def rb_track (buffer : RingBuffer) (out : Int) (live : List Bool) :
    List Op → Except Fault (RingBuffer × Int × List Bool)
  | [] => pure (buffer, out, live)
  | Op.write v :: ops => do
    let (ok, buffer1) ← rb_write buffer v
    rb_track buffer1 out (if ok then live.set buffer.writeIndex.toNat true else live) ops
  | Op.read :: ops => do
    let (ok, buffer1, out1) ← rb_read buffer out
    rb_track buffer1 out1 (if ok then live.set buffer.readIndex.toNat false else live) ops

/-- The flags of `rb_track` describe the slots at circular distance below
`rb_count` from the read cursor. -/
def LiveInv (b : RingBuffer) (live : List Bool) : Prop :=
  (live.length : Int) = b.capacity ∧
  ∀ i : Int, 0 ≤ i → i < b.capacity →
    live.getD i.toNat false = decide ((i - b.readIndex) % b.capacity < rb_count b)

/-! ## Arithmetic of the cursors -/

theorem tmod_succ (x c : Int) (h0 : 0 ≤ x) (h1 : x < c) :
    Int.tmod (x + 1) c = if x + 1 = c then 0 else x + 1 := by
  rw [Int.tmod_eq_emod (by omega) (by omega)]
  split
  · next h => rw [h]; exact Int.emod_self
  · next h => exact Int.emod_eq_of_lt (by omega) (by omega)

theorem emod_succ (x c : Int) (h0 : 0 ≤ x) (h1 : x < c) :
    (x + 1) % c = if x + 1 = c then 0 else x + 1 := by
  rw [← Int.tmod_eq_emod (by omega) (by omega)]
  exact tmod_succ x c h0 h1

theorem cmod_succ (x c : Int) (h0 : 0 ≤ x) (h1 : x < c) :
    cmod (x + 1) c = .ok (if x + 1 = c then 0 else x + 1) := by
  have hc : c ≠ 0 := by omega
  simp only [cmod, hc, if_false, tmod_succ x c h0 h1]

/-- Value of `(w - r) mod c` for cursors in range. -/
theorem emod_diff (w r c : Int) (hw0 : 0 ≤ w) (hw : w < c) (hr0 : 0 ≤ r) (hr : r < c) :
    (w - r) % c = if r ≤ w then w - r else w - r + c := by
  split
  · exact Int.emod_eq_of_lt (by omega) (by omega)
  · rw [← Int.add_emod_self]
    exact Int.emod_eq_of_lt (by omega) (by omega)

/-- Value of `(r + j) mod c` for a cursor in range and an offset below `c`. -/
theorem emod_offset (r j c : Int) (hr0 : 0 ≤ r) (hr : r < c) (hj0 : 0 ≤ j) (hj : j < c) :
    (r + j) % c = if r + j < c then r + j else r + j - c := by
  split
  · exact Int.emod_eq_of_lt (by omega) (by omega)
  · rw [Int.emod_eq_sub_self_emod]
    exact Int.emod_eq_of_lt (by omega) (by omega)

/-! ## The operations on a well-formed state -/

theorem rb_is_full_eq (b : RingBuffer) (h : InRange b) :
    rb_is_full b = .ok (decide ((if b.writeIndex + 1 = b.capacity then 0 else b.writeIndex + 1)
      = b.readIndex)) := by
  obtain ⟨hw0, hw, _, _⟩ := h
  simp only [rb_is_full, cmod_succ _ _ hw0 hw, bind, Except.bind, pure, Except.pure]
  by_cases hx : (if b.writeIndex + 1 = b.capacity then 0 else b.writeIndex + 1) = b.readIndex
  · simp [hx]
  · simp [hx]

theorem rb_write_eq (b : RingBuffer) (v : Int) (h : InRange b) (hs : Shaped b) :
    rb_write b v =
      .ok (if (if b.writeIndex + 1 = b.capacity then 0 else b.writeIndex + 1) = b.readIndex
        then (false, b)
        else (true, { b with start := b.start.set b.writeIndex.toNat v,
                             writeIndex := if b.writeIndex + 1 = b.capacity then 0
                                           else b.writeIndex + 1 })) := by
  have hw0 := h.1
  have hw := h.2.1
  have hlen : 0 ≤ b.writeIndex ∧ b.writeIndex < (b.start.length : Int) := by
    unfold Shaped at hs; omega
  simp only [rb_write, rb_is_full_eq b h, store, hlen, cmod_succ _ _ hw0 hw, bind, Except.bind,
    pure, Except.pure]
  by_cases hx : (if b.writeIndex + 1 = b.capacity then 0 else b.writeIndex + 1) = b.readIndex
  · simp [hx]
  · simp [hx]

theorem rb_read_eq (b : RingBuffer) (out : Int) (h : InRange b) (hs : Shaped b) :
    rb_read b out =
      .ok (if b.readIndex = b.writeIndex
        then (false, b, out)
        else (true, { b with readIndex := if b.readIndex + 1 = b.capacity then 0
                                          else b.readIndex + 1 },
              b.start.getD b.readIndex.toNat 0)) := by
  have hr0 := h.2.2.1
  have hr := h.2.2.2
  have hlen : 0 ≤ b.readIndex ∧ b.readIndex < (b.start.length : Int) := by
    unfold Shaped at hs; omega
  simp only [rb_read, rb_is_empty, load, hlen, cmod_succ _ _ hr0 hr, bind, Except.bind,
    pure, Except.pure]
  by_cases hx : b.readIndex = b.writeIndex
  · simp [hx]
  · simp [hx]

theorem load_set_same (xs : List Int) (i v : Int) (h0 : 0 ≤ i) (h1 : i < xs.length) :
    load (xs.set i.toNat v) i = .ok v := by
  have hlt : i.toNat < xs.length := by omega
  simp [load, h0, h1, List.getD_eq_getElem?_getD, List.getElem?_set, hlt]

theorem load_set_other (xs : List Int) (i j v : Int) (h0 : 0 ≤ i) (hij : j ≠ i) :
    load (xs.set i.toNat v) j = load xs j := by
  unfold load
  by_cases hj : 0 ≤ j ∧ j < (xs.length : Int)
  · have hne : i.toNat ≠ j.toNat := by omega
    simp [hj, List.getD_eq_getElem?_getD, List.getElem?_set, hne]
  · simp [hj]

theorem rb_new_inRange (c : Int) (hc : 1 ≤ c) : InRange (rb_new c) := by
  simp only [InRange, rb_new]
  omega

theorem rb_new_shaped (c : Int) (hc : 0 ≤ c) : Shaped (rb_new c) := by
  simp only [Shaped, rb_new, List.length_replicate]
  omega

/-- Writes into a buffer whose `readIndex` is 0 succeed as long as the write
cursor stays below `capacity - 1`. -/
theorem rb_run_fill (vs : List Int) : ∀ (b : RingBuffer) (out : Int), InRange b → Shaped b →
    b.readIndex = 0 → b.writeIndex + vs.length ≤ b.capacity - 1 →
    ∃ b1, rb_run b out (vs.map Op.write) = .ok (vs.map (fun v => Event.wrote v true), b1, out) ∧
      InRange b1 ∧ Shaped b1 ∧ b1.capacity = b.capacity ∧ b1.readIndex = 0 ∧
      b1.writeIndex = b.writeIndex + vs.length := by
  induction vs with
  | nil =>
    intro b out hr hs _ _
    exact ⟨b, rfl, hr, hs, rfl, by assumption, by simp⟩
  | cons v vs ih =>
    intro b out hr hs hr0 hroom
    obtain ⟨hw0, hw, h30, h3⟩ := hr
    simp only [List.length_cons, Nat.cast_add, Nat.cast_one] at hroom
    have hcap : ¬ b.writeIndex + 1 = b.capacity := by omega
    have hne : ¬ (if b.writeIndex + 1 = b.capacity then 0 else b.writeIndex + 1) = b.readIndex := by
      rw [if_neg hcap]; omega
    have hstep := rb_write_eq b v ⟨hw0, hw, h30, h3⟩ hs
    rw [if_neg hne, if_neg hcap] at hstep
    have hs1 : Shaped { b with start := b.start.set b.writeIndex.toNat v,
                               writeIndex := b.writeIndex + 1 } := by
      simpa [Shaped] using hs
    obtain ⟨b1, hrun, hr1, hsh1, hc1, hrd1, hw1⟩ :=
      ih { b with start := b.start.set b.writeIndex.toNat v, writeIndex := b.writeIndex + 1 } out
        ⟨by simp only; omega, by simp only; omega, h30, h3⟩ hs1 hr0 (by simp only; omega)
    refine ⟨b1, ?_, hr1, hsh1, hc1, hrd1, ?_⟩
    · simp only [List.map_cons, rb_run, hstep, hrun, bind, Except.bind, pure, Except.pure]
    · simp only [hw1, List.length_cons, Nat.cast_add, Nat.cast_one]
      omega

/-! ## The unread contents across one call -/

theorem rb_count_eq (b : RingBuffer) (h : InRange b) :
    rb_count b = if b.readIndex ≤ b.writeIndex then b.writeIndex - b.readIndex
      else b.writeIndex - b.readIndex + b.capacity := by
  obtain ⟨hw0, hw, hr0, hr⟩ := h
  exact emod_diff _ _ _ hw0 hw hr0 hr

theorem rb_count_bounds (b : RingBuffer) (h : InRange b) :
    0 ≤ rb_count b ∧ rb_count b ≤ b.capacity - 1 := by
  rw [rb_count_eq b h]
  obtain ⟨hw0, hw, hr0, hr⟩ := h
  split <;> omega

/-- The full test of `rb_is_full`, read on the number of unread elements. -/
theorem full_iff_count (b : RingBuffer) (h : InRange b) :
    (if b.writeIndex + 1 = b.capacity then 0 else b.writeIndex + 1) = b.readIndex
      ↔ rb_count b = b.capacity - 1 := by
  rw [rb_count_eq b h]
  obtain ⟨hw0, hw, hr0, hr⟩ := h
  split <;> split <;> omega

theorem empty_iff_count (b : RingBuffer) (h : InRange b) :
    b.readIndex = b.writeIndex ↔ rb_count b = 0 := by
  rw [rb_count_eq b h]
  obtain ⟨hw0, hw, hr0, hr⟩ := h
  split <;> omega

theorem getD_set_other (xs : List Int) (i j : Nat) (v : Int) (hij : i ≠ j) :
    (xs.set i v).getD j 0 = xs.getD j 0 := by
  simp [List.getD_eq_getElem?_getD, List.getElem?_set, hij]

theorem getD_set_same (xs : List Int) (i : Nat) (v : Int) (hi : i < xs.length) :
    (xs.set i v).getD i 0 = v := by
  simp [List.getD_eq_getElem?_getD, List.getElem?_set, hi]

/-- An accepted write appends the value to the unread contents. -/
theorem rb_contents_write (b : RingBuffer) (v : Int) (h : InRange b) (hs : Shaped b)
    (hnf : ¬ (if b.writeIndex + 1 = b.capacity then 0 else b.writeIndex + 1) = b.readIndex) :
    rb_contents { b with start := b.start.set b.writeIndex.toNat v,
                         writeIndex := if b.writeIndex + 1 = b.capacity then 0
                                       else b.writeIndex + 1 }
      = rb_contents b ++ [v] ∧
    rb_count { b with start := b.start.set b.writeIndex.toNat v,
                      writeIndex := if b.writeIndex + 1 = b.capacity then 0
                                    else b.writeIndex + 1 }
      = rb_count b + 1 := by
  have hcnt := rb_count_eq b h
  have hbd := rb_count_bounds b h
  have hfull := full_iff_count b h
  obtain ⟨hw0, hw, hr0, hr⟩ := h
  have hlen : (b.start.length : Int) = b.capacity := hs
  have hc1 : rb_count
      { b with start := b.start.set b.writeIndex.toNat v,
               writeIndex := if b.writeIndex + 1 = b.capacity then 0 else b.writeIndex + 1 }
      = rb_count b + 1 := by
    have h1 : InRange
        { b with start := b.start.set b.writeIndex.toNat v,
                 writeIndex := if b.writeIndex + 1 = b.capacity then 0 else b.writeIndex + 1 } := by
      refine ⟨?_, ?_, hr0, hr⟩
      · show 0 ≤ (if b.writeIndex + 1 = b.capacity then 0 else b.writeIndex + 1)
        split <;> omega
      · show (if b.writeIndex + 1 = b.capacity then 0 else b.writeIndex + 1) < b.capacity
        split <;> omega
    rw [rb_count_eq _ h1, hcnt]
    simp only
    split_ifs at hnf ⊢ <;> omega
  refine ⟨?_, hc1⟩
  obtain ⟨n, hn⟩ := Int.eq_ofNat_of_zero_le hbd.1
  unfold rb_contents
  rw [hc1, hn]
  have e1 : ((n : Int) + 1).toNat = n + 1 := by omega
  have e2 : ((n : Int)).toNat = n := by omega
  rw [e1, e2, List.range_succ, List.map_append]
  congr 1
  · apply List.map_congr_left
    intro j hj
    have hjn : j < n := List.mem_range.mp hj
    simp only
    apply getD_set_other
    have hoff := emod_offset b.readIndex (j : Int) b.capacity hr0 hr (by omega) (by omega)
    rw [hoff]
    rw [hn] at hcnt
    split at hcnt <;> split <;> omega
  · simp only [List.map_cons, List.map_nil]
    have hoff := emod_offset b.readIndex (n : Int) b.capacity hr0 hr (by omega) (by omega)
    have hpos : (b.readIndex + (n : Int)) % b.capacity = b.writeIndex := by
      rw [hoff]
      rw [hn] at hcnt
      split at hcnt <;> split <;> omega
    rw [hpos, getD_set_same _ _ _ (by omega)]

/-- An accepted read removes the oldest unread value, which is the slot at the
read cursor. -/
theorem rb_contents_read (b : RingBuffer) (h : InRange b) (hne : ¬ b.readIndex = b.writeIndex) :
    rb_contents b = b.start.getD b.readIndex.toNat 0 ::
      rb_contents { b with readIndex := if b.readIndex + 1 = b.capacity then 0
                                        else b.readIndex + 1 } ∧
    rb_count { b with readIndex := if b.readIndex + 1 = b.capacity then 0
                                   else b.readIndex + 1 }
      = rb_count b - 1 := by
  have hcnt := rb_count_eq b h
  have hbd := rb_count_bounds b h
  obtain ⟨hw0, hw, hr0, hr⟩ := h
  have h1 : InRange
      { b with readIndex := if b.readIndex + 1 = b.capacity then 0 else b.readIndex + 1 } := by
    refine ⟨hw0, hw, ?_, ?_⟩
    · show 0 ≤ (if b.readIndex + 1 = b.capacity then 0 else b.readIndex + 1)
      split <;> omega
    · show (if b.readIndex + 1 = b.capacity then 0 else b.readIndex + 1) < b.capacity
      split <;> omega
  have hc1 : rb_count
      { b with readIndex := if b.readIndex + 1 = b.capacity then 0 else b.readIndex + 1 }
      = rb_count b - 1 := by
    rw [rb_count_eq _ h1, hcnt]
    simp only
    split_ifs <;> omega
  refine ⟨?_, hc1⟩
  have hpos : 0 < rb_count b := by
    rw [hcnt]; split <;> omega
  obtain ⟨n, hn⟩ := Int.eq_ofNat_of_zero_le (show 0 ≤ rb_count b - 1 by omega)
  have hn1 : rb_count b = (n : Int) + 1 := by omega
  unfold rb_contents
  rw [hc1, hn, hn1]
  have e1 : ((n : Int) + 1).toNat = n + 1 := by omega
  have e2 : ((n : Int)).toNat = n := by omega
  rw [e1, e2, List.range_succ_eq_map, List.map_cons, List.map_map]
  congr 1
  · simp only [Nat.cast_zero, add_zero]
    rw [Int.emod_eq_of_lt hr0 hr]
  · apply List.map_congr_left
    intro j hj
    have hjn : j < n := List.mem_range.mp hj
    simp only [Function.comp, Nat.succ_eq_add_one, Nat.cast_add, Nat.cast_one]
    congr 2
    by_cases hwrap : b.readIndex + 1 = b.capacity
    · rw [if_pos hwrap]
      have : b.readIndex + ((j : Int) + 1) = (j : Int) + b.capacity := by omega
      rw [this, Int.add_emod_self, zero_add]
    · rw [if_neg hwrap]
      congr 1
      omega

theorem next_inRange (x c : Int) (h0 : 0 ≤ x) (h1 : x < c) :
    0 ≤ (if x + 1 = c then 0 else x + 1) ∧ (if x + 1 = c then 0 else x + 1) < c := by
  split <;> omega

/-- One `rb_write` on a well-formed state: it returns, the state stays
well-formed, and the unread contents grow by the value exactly when the call
returned `true`. -/
theorem rb_write_step (b : RingBuffer) (v : Int) (h : InRange b) (hs : Shaped b) :
    ∃ ok b1, rb_write b v = .ok (ok, b1) ∧ InRange b1 ∧ Shaped b1 ∧
      b1.capacity = b.capacity ∧
      rb_contents b1 = rb_contents b ++ (if ok then [v] else []) ∧
      rb_count b1 = rb_count b + (if ok then 1 else 0) := by
  by_cases hf : (if b.writeIndex + 1 = b.capacity then 0 else b.writeIndex + 1) = b.readIndex
  · refine ⟨false, b, ?_, h, hs, rfl, by simp, by simp⟩
    rw [rb_write_eq b v h hs, if_pos hf]
  · have hc := rb_contents_write b v h hs hf
    have hnx := next_inRange _ _ h.1 h.2.1
    refine ⟨true,
      { b with start := b.start.set b.writeIndex.toNat v,
               writeIndex := if b.writeIndex + 1 = b.capacity then 0 else b.writeIndex + 1 },
      ?_, ⟨hnx.1, hnx.2, h.2.2.1, h.2.2.2⟩, ?_, rfl, ?_, ?_⟩
    · rw [rb_write_eq b v h hs, if_neg hf]
    · simpa [Shaped] using hs
    · simpa using hc.1
    · simpa using hc.2

/-- One `rb_read` on a well-formed state: it returns, the state stays
well-formed, and the value delivered by a call that returned `true` is the head
of the unread contents, which loses it. -/
theorem rb_read_step (b : RingBuffer) (out : Int) (h : InRange b) (hs : Shaped b) :
    ∃ ok b1 out1, rb_read b out = .ok (ok, b1, out1) ∧ InRange b1 ∧ Shaped b1 ∧
      b1.capacity = b.capacity ∧
      rb_contents b = (if ok then [out1] else []) ++ rb_contents b1 ∧
      rb_count b1 = rb_count b - (if ok then 1 else 0) := by
  by_cases he : b.readIndex = b.writeIndex
  · refine ⟨false, b, out, ?_, h, hs, rfl, by simp, by simp⟩
    rw [rb_read_eq b out h hs, if_pos he]
  · have hc := rb_contents_read b h he
    have hnx := next_inRange _ _ h.2.2.1 h.2.2.2
    refine ⟨true,
      { b with readIndex := if b.readIndex + 1 = b.capacity then 0 else b.readIndex + 1 },
      b.start.getD b.readIndex.toNat 0,
      ?_, ⟨h.1, h.2.1, hnx.1, hnx.2⟩, ?_, rfl, ?_, ?_⟩
    · rw [rb_read_eq b out h hs, if_neg he]
    · simpa [Shaped] using hs
    · simpa using hc.1
    · simpa using hc.2

/-- Any sequence of calls on a well-formed state runs to completion, keeps the
state well-formed, and the values written successfully, queued behind the
initial contents, are the delivered values followed by the final contents. -/
theorem rb_run_inv (ops : List Op) : ∀ (b : RingBuffer) (out : Int), InRange b → Shaped b →
    ∃ evs b1 out1, rb_run b out ops = .ok (evs, b1, out1) ∧ InRange b1 ∧ Shaped b1 ∧
      b1.capacity = b.capacity ∧
      rb_contents b ++ written evs = delivered evs ++ rb_contents b1 := by
  induction ops with
  | nil =>
    intro b out h hs
    exact ⟨[], b, out, rfl, h, hs, rfl, by simp [written, delivered]⟩
  | cons op ops ih =>
    intro b out h hs
    cases op with
    | write v =>
      obtain ⟨ok, b1, hw, h1, hs1, hc1, hcont, _⟩ := rb_write_step b v h hs
      obtain ⟨evs, b2, out2, hrun, h2, hs2, hc2, hinv⟩ := ih b1 out h1 hs1
      refine ⟨Event.wrote v ok :: evs, b2, out2, ?_, h2, hs2, hc2.trans hc1, ?_⟩
      · simp only [rb_run, hw, hrun, bind, Except.bind, pure, Except.pure]
      · rw [hcont] at hinv
        cases ok
        · simpa [written, delivered] using hinv
        · simpa [written, delivered] using hinv
    | read =>
      obtain ⟨ok, b1, out1, hrd, h1, hs1, hc1, hcont, _⟩ := rb_read_step b out h hs
      obtain ⟨evs, b2, out2, hrun, h2, hs2, hc2, hinv⟩ := ih b1 out1 h1 hs1
      refine ⟨Event.readOut ok out1 :: evs, b2, out2, ?_, h2, hs2, hc2.trans hc1, ?_⟩
      · simp only [rb_run, hrd, hrun, bind, Except.bind, pure, Except.pure]
      · rw [hcont]
        cases ok
        · simpa [written, delivered] using hinv
        · simpa [written, delivered] using hinv

theorem rb_contents_length (b : RingBuffer) : ((rb_contents b).length : Int) = max (rb_count b) 0 := by
  simp [rb_contents, Int.toNat_eq_max]

theorem rb_contents_new (c : Int) : rb_contents (rb_new c) = [] := by
  simp [rb_contents, rb_count, rb_new]

/-! ## Runs of accepted writes and of accepted reads -/

theorem rb_run_append (xs ys : List Op) : ∀ (b : RingBuffer) (out : Int) (e1 e2 : List Event)
    (b1 b2 : RingBuffer) (o1 o2 : Int),
    rb_run b out xs = .ok (e1, b1, o1) → rb_run b1 o1 ys = .ok (e2, b2, o2) →
    rb_run b out (xs ++ ys) = .ok (e1 ++ e2, b2, o2) := by
  induction xs with
  | nil =>
    intro b out e1 e2 b1 b2 o1 o2 h1 h2
    simp only [rb_run, pure, Except.pure, Except.ok.injEq, Prod.mk.injEq] at h1
    obtain ⟨he, hb, ho⟩ := h1
    subst he hb ho
    simpa using h2
  | cons op xs ih =>
    intro b out e1 e2 b1 b2 o1 o2 h1 h2
    cases op with
    | write v =>
      simp only [rb_run, bind, Except.bind, pure, Except.pure, List.cons_append] at h1 ⊢
      cases hw : rb_write b v with
      | error e => simp [hw] at h1
      | ok r =>
        obtain ⟨ok, bm⟩ := r
        simp only [hw] at h1 ⊢
        cases hr : rb_run bm out xs with
        | error e => simp [hr] at h1
        | ok r1 =>
          obtain ⟨em, b1m, o1m⟩ := r1
          simp only [hr, Except.ok.injEq, Prod.mk.injEq] at h1
          obtain ⟨he, hb, ho⟩ := h1
          subst he hb ho
          simp only [List.append_eq]
          rw [ih bm out em e2 b1m b2 o1m o2 hr h2]
          rfl
    | read =>
      simp only [rb_run, bind, Except.bind, pure, Except.pure, List.cons_append] at h1 ⊢
      cases hw : rb_read b out with
      | error e => simp [hw] at h1
      | ok r =>
        obtain ⟨ok, bm, om⟩ := r
        simp only [hw] at h1 ⊢
        cases hr : rb_run bm om xs with
        | error e => simp [hr] at h1
        | ok r1 =>
          obtain ⟨em, b1m, o1m⟩ := r1
          simp only [hr, Except.ok.injEq, Prod.mk.injEq] at h1
          obtain ⟨he, hb, ho⟩ := h1
          subst he hb ho
          simp only [List.append_eq]
          rw [ih bm om em e2 b1m b2 o1m o2 hr h2]
          rfl

theorem next_add_emod (x c : Int) (k : Int) :
    ((if x + 1 = c then 0 else x + 1) + k) % c = (x + (k + 1)) % c := by
  split
  · next h =>
    have : x + (k + 1) = k + c := by omega
    rw [this, Int.add_emod_self, zero_add]
  · congr 1
    omega

/-- As long as there is room, every write of a run of writes is accepted. -/
theorem rb_run_writes (vs : List Int) : ∀ (b : RingBuffer) (out : Int), InRange b → Shaped b →
    rb_count b + vs.length ≤ b.capacity - 1 →
    ∃ b1, rb_run b out (vs.map Op.write) = .ok (vs.map (fun v => Event.wrote v true), b1, out) ∧
      InRange b1 ∧ Shaped b1 ∧ b1.capacity = b.capacity ∧ b1.readIndex = b.readIndex ∧
      b1.writeIndex = (b.writeIndex + vs.length) % b.capacity ∧
      rb_count b1 = rb_count b + vs.length ∧
      rb_contents b1 = rb_contents b ++ vs := by
  induction vs with
  | nil =>
    intro b out hr hs _
    refine ⟨b, rfl, hr, hs, rfl, rfl, ?_, by simp, by simp⟩
    simp only [List.length_nil, Nat.cast_zero, add_zero]
    exact (Int.emod_eq_of_lt hr.1 hr.2.1).symm
  | cons v vs ih =>
    intro b out hr hs hroom
    simp only [List.length_cons, Nat.cast_add, Nat.cast_one] at hroom
    have hne : ¬ (if b.writeIndex + 1 = b.capacity then 0 else b.writeIndex + 1) = b.readIndex := by
      rw [full_iff_count b hr]; omega
    have hstep := rb_write_eq b v hr hs
    rw [if_neg hne] at hstep
    have hcw := rb_contents_write b v hr hs hne
    have hnx := next_inRange _ _ hr.1 hr.2.1
    obtain ⟨b1, hrun, hr1, hsh1, hc1, hrd1, hw1, hcnt1, hcont1⟩ :=
      ih { b with start := b.start.set b.writeIndex.toNat v,
                  writeIndex := if b.writeIndex + 1 = b.capacity then 0 else b.writeIndex + 1 }
        out ⟨hnx.1, hnx.2, hr.2.2.1, hr.2.2.2⟩ (by simpa [Shaped] using hs)
        (by rw [hcw.2]; simp only; omega)
    refine ⟨b1, ?_, hr1, hsh1, hc1, hrd1, ?_, ?_, ?_⟩
    · simp only [List.map_cons, rb_run, hstep, hrun, bind, Except.bind, pure, Except.pure]
    · rw [hw1]
      simp only [List.length_cons, Nat.cast_add, Nat.cast_one]
      exact next_add_emod _ _ _
    · rw [hcnt1, hcw.2]
      simp only [List.length_cons, Nat.cast_add, Nat.cast_one]
      omega
    · rw [hcont1, hcw.1]
      simp

/-- As long as unread values remain, every read of a run of reads is accepted
and delivers the next unread value. -/
theorem rb_run_reads (n : Nat) : ∀ (b : RingBuffer) (out : Int), InRange b → Shaped b →
    (n : Int) ≤ rb_count b →
    ∃ b1 out1, rb_run b out (List.replicate n Op.read)
        = .ok (((rb_contents b).take n).map (fun x => Event.readOut true x), b1, out1) ∧
      InRange b1 ∧ Shaped b1 ∧ b1.capacity = b.capacity ∧ b1.writeIndex = b.writeIndex ∧
      b1.start = b.start ∧
      b1.readIndex = (b.readIndex + n) % b.capacity ∧
      rb_count b1 = rb_count b - n ∧
      rb_contents b = (rb_contents b).take n ++ rb_contents b1 := by
  induction n with
  | zero =>
    intro b out hr hs _
    refine ⟨b, out, rfl, hr, hs, rfl, rfl, rfl, ?_, by simp, by simp⟩
    simp only [Nat.cast_zero, add_zero]
    exact (Int.emod_eq_of_lt hr.2.2.1 hr.2.2.2).symm
  | succ n ih =>
    intro b out hr hs hn
    simp only [Nat.cast_add, Nat.cast_one] at hn
    have hne : ¬ b.readIndex = b.writeIndex := by
      rw [empty_iff_count b hr]; omega
    have hstep := rb_read_eq b out hr hs
    rw [if_neg hne] at hstep
    have hcr := rb_contents_read b hr hne
    have hnx := next_inRange _ _ hr.2.2.1 hr.2.2.2
    obtain ⟨b1, out1, hrun, hr1, hsh1, hc1, hw1, hst1, hrd1, hcnt1, hcont1⟩ :=
      ih { b with readIndex := if b.readIndex + 1 = b.capacity then 0 else b.readIndex + 1 }
        (b.start.getD b.readIndex.toNat 0) ⟨hr.1, hr.2.1, hnx.1, hnx.2⟩
        (by simpa [Shaped] using hs) (by rw [hcr.2]; omega)
    refine ⟨b1, out1, ?_, hr1, hsh1, hc1, hw1, hst1, ?_, ?_, ?_⟩
    · simp only [List.replicate_succ, rb_run, hstep, hrun, bind, Except.bind, pure, Except.pure]
      rw [hcr.1]
      simp
    · rw [hrd1]
      simp only [Nat.cast_add, Nat.cast_one]
      exact next_add_emod _ _ _
    · rw [hcnt1, hcr.2]
      simp only [Nat.cast_add, Nat.cast_one]
      omega
    · rw [hcr.1, List.take_succ_cons, List.cons_append, ← hcont1]

/-! ## Faults -/

theorem rb_is_full_of_ne (b : RingBuffer) (hc : b.capacity ≠ 0) :
    rb_is_full b = .ok (Int.tmod (b.writeIndex + 1) b.capacity == b.readIndex) := by
  simp [rb_is_full, cmod, hc, bind, Except.bind, pure, Except.pure]

theorem rb_is_full_of_zero (b : RingBuffer) (hc : b.capacity = 0) :
    rb_is_full b = .error .divByZero := by
  simp [rb_is_full, cmod, hc, bind, Except.bind]

theorem rb_value_is_garbage_of_ne (b : RingBuffer) (i : Int) (hc : b.capacity ≠ 0) :
    ∃ r, rb_value_is_garbage b i = .ok r := by
  by_cases he : rb_is_empty b = true
  · exact ⟨true, by simp [rb_value_is_garbage, he, pure, Except.pure]⟩
  · by_cases hf : (Int.tmod (b.writeIndex + 1) b.capacity == b.readIndex) = true
    · exact ⟨false, by
        simp [rb_value_is_garbage, he, rb_is_full_of_ne b hc, hf, bind, Except.bind, pure,
          Except.pure]⟩
    · refine ⟨if b.readIndex ≤ b.writeIndex
          then decide (i < b.readIndex) || decide (i ≥ b.writeIndex)
          else decide (i < b.readIndex) && decide (i ≥ b.writeIndex), ?_⟩
      simp only [rb_value_is_garbage, he, rb_is_full_of_ne b hc, hf, bind, Except.bind, pure,
        Except.pure, if_false, Bool.false_eq_true]

theorem rb_value_is_garbage_of_zero (b : RingBuffer) (i : Int) (hc : b.capacity = 0) :
    rb_value_is_garbage b i = .ok true ∨ rb_value_is_garbage b i = .error .divByZero := by
  by_cases he : rb_is_empty b = true
  · left
    simp [rb_value_is_garbage, he, pure, Except.pure]
  · right
    simp [rb_value_is_garbage, he, rb_is_full_of_zero b hc, bind, Except.bind]

theorem rb_value_is_garbage_in_bounds (b : RingBuffer) (i : Int) :
    rb_value_is_garbage b i ≠ .error .outOfBounds := by
  intro h
  by_cases hc : b.capacity = 0
  · rcases rb_value_is_garbage_of_zero b i hc with h1 | h1
    · rw [h1] at h; cases h
    · rw [h1] at h; cases h
  · obtain ⟨r, h1⟩ := rb_value_is_garbage_of_ne b i hc
    rw [h1] at h; cases h

theorem rb_write_no_div (b : RingBuffer) (v : Int) (hc : b.capacity ≠ 0) :
    rb_write b v ≠ .error .divByZero := by
  intro h
  by_cases hf : (Int.tmod (b.writeIndex + 1) b.capacity == b.readIndex) = true
  · simp [rb_write, rb_is_full_of_ne b hc, hf, bind, Except.bind, pure, Except.pure] at h
  · by_cases hb : 0 ≤ b.writeIndex ∧ b.writeIndex < (b.start.length : Int)
    · simp [rb_write, rb_is_full_of_ne b hc, hf, store, hb, cmod, hc, bind, Except.bind, pure,
        Except.pure] at h
    · simp [rb_write, rb_is_full_of_ne b hc, hf, store, hb, bind, Except.bind] at h

theorem rb_read_no_div (b : RingBuffer) (out : Int) (hc : b.capacity ≠ 0) :
    rb_read b out ≠ .error .divByZero := by
  intro h
  by_cases he : rb_is_empty b = true
  · simp [rb_read, he, pure, Except.pure] at h
  · by_cases hb : 0 ≤ b.readIndex ∧ b.readIndex < (b.start.length : Int)
    · simp [rb_read, he, load, hb, cmod, hc, bind, Except.bind, pure, Except.pure] at h
    · simp [rb_read, he, load, hb, bind, Except.bind] at h

/-! ## The loops -/

/-- Draining: with more fuel than unread values, the read loop stops after
exactly as many accepted reads as there were unread values, with the read
cursor on the write cursor and nothing else changed. -/
theorem read_until_empty_spec (n : Nat) : ∀ (b : RingBuffer) (out : Int) (fuel : Nat),
    InRange b → Shaped b → rb_count b = n → n < fuel →
    ∃ b1 out1, read_until_empty fuel b out = .ok (some (n, b1, out1)) ∧
      b1.readIndex = b.writeIndex ∧ b1.writeIndex = b.writeIndex ∧
      b1.capacity = b.capacity ∧ b1.start = b.start := by
  induction n with
  | zero =>
    intro b out fuel hr hs hcnt hfuel
    obtain ⟨f, rfl⟩ : ∃ f, fuel = f + 1 := ⟨fuel - 1, by omega⟩
    have he : b.readIndex = b.writeIndex := (empty_iff_count b hr).mpr (by simpa using hcnt)
    have hread := rb_read_eq b out hr hs
    rw [if_pos he] at hread
    refine ⟨b, out, ?_, he, rfl, rfl, rfl⟩
    simp [read_until_empty, hread, bind, Except.bind, pure, Except.pure]
  | succ n ih =>
    intro b out fuel hr hs hcnt hfuel
    obtain ⟨f, rfl⟩ : ∃ f, fuel = f + 1 := ⟨fuel - 1, by omega⟩
    have hne : ¬ b.readIndex = b.writeIndex := by
      rw [empty_iff_count b hr, hcnt]
      push_cast
      omega
    have hread := rb_read_eq b out hr hs
    rw [if_neg hne] at hread
    have hcr := (rb_contents_read b hr hne).2
    have hnx := next_inRange _ _ hr.2.2.1 hr.2.2.2
    obtain ⟨b1, out1, hloop, h1, h2, h3, h4⟩ :=
      ih { b with readIndex := if b.readIndex + 1 = b.capacity then 0 else b.readIndex + 1 }
        (b.start.getD b.readIndex.toNat 0) f ⟨hr.1, hr.2.1, hnx.1, hnx.2⟩
        (by simpa [Shaped] using hs) (by rw [hcr, hcnt]; push_cast; omega) (by omega)
    refine ⟨b1, out1, ?_, h1, h2, h3, h4⟩
    simp only [read_until_empty, hread, hloop, bind, Except.bind, pure, Except.pure, if_true,
      Option.map]

/-- Filling: with more fuel than free places, the write loop stops after exactly
as many accepted writes as there were free places, with the buffer full. -/
theorem write_until_full_spec (m : Nat) : ∀ (b : RingBuffer) (i : Int) (fuel : Nat),
    InRange b → Shaped b → rb_count b + m = b.capacity - 1 → m < fuel →
    ∃ b1, write_until_full fuel b i = .ok (some (m, b1)) ∧
      rb_is_full b1 = .ok true ∧ b1.readIndex = b.readIndex ∧ b1.capacity = b.capacity := by
  induction m with
  | zero =>
    intro b i fuel hr hs hcnt hfuel
    obtain ⟨f, rfl⟩ : ∃ f, fuel = f + 1 := ⟨fuel - 1, by omega⟩
    have hf : (if b.writeIndex + 1 = b.capacity then 0 else b.writeIndex + 1) = b.readIndex :=
      (full_iff_count b hr).mpr (by simpa using hcnt)
    have hwrite := rb_write_eq b i hr hs
    rw [if_pos hf] at hwrite
    refine ⟨b, ?_, ?_, rfl, rfl⟩
    · simp [write_until_full, hwrite, bind, Except.bind, pure, Except.pure]
    · rw [rb_is_full_eq b hr]
      simp [hf]
  | succ m ih =>
    intro b i fuel hr hs hcnt hfuel
    obtain ⟨f, rfl⟩ : ∃ f, fuel = f + 1 := ⟨fuel - 1, by omega⟩
    push_cast at hcnt
    have hnf : ¬ (if b.writeIndex + 1 = b.capacity then 0 else b.writeIndex + 1) = b.readIndex := by
      rw [full_iff_count b hr]
      omega
    have hwrite := rb_write_eq b i hr hs
    rw [if_neg hnf] at hwrite
    have hcw := (rb_contents_write b i hr hs hnf).2
    have hnx := next_inRange _ _ hr.1 hr.2.1
    obtain ⟨b1, hloop, h1, h2, h3⟩ :=
      ih { b with start := b.start.set b.writeIndex.toNat i,
                  writeIndex := if b.writeIndex + 1 = b.capacity then 0 else b.writeIndex + 1 }
        (i + 1) f ⟨hnx.1, hnx.2, hr.2.2.1, hr.2.2.2⟩ (by simpa [Shaped] using hs)
        (by rw [hcw]; simp only; omega) (by omega)
    refine ⟨b1, ?_, h1, h2, h3⟩
    simp only [write_until_full, hwrite, hloop, bind, Except.bind, pure, Except.pure, if_true,
      Option.map]

/-! ## Slots holding an unread value -/

theorem flag_set_other (xs : List Bool) (i j : Nat) (v : Bool) (hij : i ≠ j) :
    (xs.set i v).getD j false = xs.getD j false := by
  simp [List.getD_eq_getElem?_getD, List.getElem?_set, hij]

theorem flag_set_same (xs : List Bool) (i : Nat) (v : Bool) (hi : i < xs.length) :
    (xs.set i v).getD i false = v := by
  simp [List.getD_eq_getElem?_getD, List.getElem?_set, hi]

/-- An accepted write marks the slot it stored into. -/
theorem liveInv_write (b : RingBuffer) (v : Int) (live : List Bool) (h : InRange b)
    (hnf : ¬ (if b.writeIndex + 1 = b.capacity then 0 else b.writeIndex + 1) = b.readIndex)
    (hl : LiveInv b live) :
    LiveInv
      { b with start := b.start.set b.writeIndex.toNat v,
               writeIndex := if b.writeIndex + 1 = b.capacity then 0 else b.writeIndex + 1 }
      (live.set b.writeIndex.toNat true) := by
  have hnx := next_inRange _ _ h.1 h.2.1
  have h1 : InRange
      { b with start := b.start.set b.writeIndex.toNat v,
               writeIndex := if b.writeIndex + 1 = b.capacity then 0 else b.writeIndex + 1 } :=
    ⟨hnx.1, hnx.2, h.2.2.1, h.2.2.2⟩
  have hc1 : rb_count
      { b with start := b.start.set b.writeIndex.toNat v,
               writeIndex := if b.writeIndex + 1 = b.capacity then 0 else b.writeIndex + 1 }
      = rb_count b + 1 := by
    have hcnt := rb_count_eq b h
    have hfull := full_iff_count b h
    rw [rb_count_eq _ h1, hcnt]
    obtain ⟨hw0, hw, hr0, hr⟩ := h
    simp only
    split_ifs at hnf ⊢ <;> omega
  obtain ⟨hlen, hflags⟩ := hl
  refine ⟨by simpa using hlen, ?_⟩
  intro i hi0 (hi : i < b.capacity)
  rw [hc1]
  show (live.set b.writeIndex.toNat true).getD i.toNat false
    = decide ((i - b.readIndex) % b.capacity < rb_count b + 1)
  have hcnt := rb_count_eq b h
  obtain ⟨hw0, hw, hr0, hr⟩ := h
  have hx := emod_diff i b.readIndex b.capacity hi0 hi hr0 hr
  by_cases hiw : i = b.writeIndex
  · subst hiw
    rw [flag_set_same _ _ _ (by omega)]
    symm
    rw [decide_eq_true_eq, hx, hcnt]
    omega
  · rw [flag_set_other _ _ _ _ (by omega), hflags i hi0 hi, decide_eq_decide, hx, hcnt]
    split_ifs <;> omega

/-- An accepted read clears the slot it loaded from. -/
theorem liveInv_read (b : RingBuffer) (live : List Bool) (h : InRange b)
    (hne : ¬ b.readIndex = b.writeIndex) (hl : LiveInv b live) :
    LiveInv
      { b with readIndex := if b.readIndex + 1 = b.capacity then 0 else b.readIndex + 1 }
      (live.set b.readIndex.toNat false) := by
  have hnx := next_inRange _ _ h.2.2.1 h.2.2.2
  have hc1 := (rb_contents_read b h hne).2
  obtain ⟨hlen, hflags⟩ := hl
  refine ⟨by simpa using hlen, ?_⟩
  intro i hi0 (hi : i < b.capacity)
  rw [hc1]
  show (live.set b.readIndex.toNat false).getD i.toNat false
    = decide ((i - (if b.readIndex + 1 = b.capacity then 0 else b.readIndex + 1)) % b.capacity
        < rb_count b - 1)
  have hcnt := rb_count_eq b h
  obtain ⟨hw0, hw, hr0, hr⟩ := h
  have hx := emod_diff i b.readIndex b.capacity hi0 hi hr0 hr
  have hx1 := emod_diff i (if b.readIndex + 1 = b.capacity then 0 else b.readIndex + 1)
    b.capacity hi0 hi hnx.1 hnx.2
  by_cases hir : i = b.readIndex
  · subst hir
    rw [flag_set_same _ _ _ (by omega)]
    symm
    rw [decide_eq_false_iff_not, hx1, hcnt]
    split_ifs <;> omega
  · rw [flag_set_other _ _ _ _ (by omega), hflags i hi0 hi, decide_eq_decide, hx, hx1, hcnt]
    split_ifs <;> omega

/-- The bookkeeping run reaches the same buffer as `rb_run` and keeps its flags
in step with the cursors. -/
theorem rb_track_inv (ops : List Op) : ∀ (b : RingBuffer) (out : Int) (live : List Bool),
    InRange b → Shaped b → LiveInv b live →
    ∃ evs b1 out1 live1, rb_run b out ops = .ok (evs, b1, out1) ∧
      rb_track b out live ops = .ok (b1, out1, live1) ∧
      InRange b1 ∧ b1.capacity = b.capacity ∧ LiveInv b1 live1 := by
  induction ops with
  | nil =>
    intro b out live h _ hl
    exact ⟨[], b, out, live, rfl, rfl, h, rfl, hl⟩
  | cons op ops ih =>
    intro b out live h hs hl
    cases op with
    | write v =>
      have hstep := rb_write_eq b v h hs
      by_cases hf : (if b.writeIndex + 1 = b.capacity then 0 else b.writeIndex + 1) = b.readIndex
      · rw [if_pos hf] at hstep
        obtain ⟨evs, b1, out1, live1, hrun, htr, h1, hc1, hl1⟩ := ih b out live h hs hl
        refine ⟨Event.wrote v false :: evs, b1, out1, live1, ?_, ?_, h1, hc1, hl1⟩
        · simp only [rb_run, hstep, hrun, bind, Except.bind, pure, Except.pure]
        · simp only [rb_track, hstep, htr, bind, Except.bind, Bool.false_eq_true, if_false]
      · rw [if_neg hf] at hstep
        have hnx := next_inRange _ _ h.1 h.2.1
        obtain ⟨evs, b1, out1, live1, hrun, htr, h1, hc1, hl1⟩ :=
          ih { b with start := b.start.set b.writeIndex.toNat v,
                      writeIndex := if b.writeIndex + 1 = b.capacity then 0
                                    else b.writeIndex + 1 }
            out (live.set b.writeIndex.toNat true) ⟨hnx.1, hnx.2, h.2.2.1, h.2.2.2⟩
            (by simpa [Shaped] using hs) (liveInv_write b v live h hf hl)
        refine ⟨Event.wrote v true :: evs, b1, out1, live1, ?_, ?_, h1, hc1, hl1⟩
        · simp only [rb_run, hstep, hrun, bind, Except.bind, pure, Except.pure]
        · simp only [rb_track, hstep, htr, bind, Except.bind, if_true]
    | read =>
      have hstep := rb_read_eq b out h hs
      by_cases he : b.readIndex = b.writeIndex
      · rw [if_pos he] at hstep
        obtain ⟨evs, b1, out1, live1, hrun, htr, h1, hc1, hl1⟩ := ih b out live h hs hl
        refine ⟨Event.readOut false out :: evs, b1, out1, live1, ?_, ?_, h1, hc1, hl1⟩
        · simp only [rb_run, hstep, hrun, bind, Except.bind, pure, Except.pure]
        · simp only [rb_track, hstep, htr, bind, Except.bind, Bool.false_eq_true, if_false]
      · rw [if_neg he] at hstep
        have hnx := next_inRange _ _ h.2.2.1 h.2.2.2
        obtain ⟨evs, b1, out1, live1, hrun, htr, h1, hc1, hl1⟩ :=
          ih { b with readIndex := if b.readIndex + 1 = b.capacity then 0 else b.readIndex + 1 }
            (b.start.getD b.readIndex.toNat 0) (live.set b.readIndex.toNat false)
            ⟨h.1, h.2.1, hnx.1, hnx.2⟩ (by simpa [Shaped] using hs) (liveInv_read b live h he hl)
        refine ⟨Event.readOut true (b.start.getD b.readIndex.toNat 0) :: evs, b1, out1, live1,
          ?_, ?_, h1, hc1, hl1⟩
        · simp only [rb_run, hstep, hrun, bind, Except.bind, pure, Except.pure]
        · simp only [rb_track, hstep, htr, bind, Except.bind, if_true]

theorem liveInv_new (c : Int) (hc : 1 ≤ c) : LiveInv (rb_new c) (List.replicate c.toNat false) := by
  refine ⟨by simp only [List.length_replicate, rb_new]; omega, ?_⟩
  intro i hi0 hi
  have hcnt : rb_count (rb_new c) = 0 := by simp [rb_count, rb_new]
  rw [hcnt]
  have hnn : 0 ≤ (i - (rb_new c).readIndex) % (rb_new c).capacity :=
    Int.emod_nonneg _ (by show c ≠ 0; omega)
  have hfalse : ¬ (i - (rb_new c).readIndex) % (rb_new c).capacity < 0 := by omega
  rw [decide_eq_false hfalse]
  simp only [rb_new, List.getD_eq_getElem?_getD, List.getElem?_replicate]
  split <;> rfl

/-- The result of `rb_value_is_garbage` on a state with cursors in range, read
on the number of unread values. -/
theorem rb_value_is_garbage_eq (b : RingBuffer) (i : Int) (h : InRange b) (hi0 : 0 ≤ i)
    (hi : i < b.capacity) :
    rb_value_is_garbage b i = .ok (if rb_count b = 0 then true
      else if rb_count b = b.capacity - 1 then false
      else decide (rb_count b ≤ (i - b.readIndex) % b.capacity)) := by
  have hfull := rb_is_full_eq b h
  have hfc := full_iff_count b h
  have hec := empty_iff_count b h
  have hcnt := rb_count_eq b h
  obtain ⟨hw0, hw, hr0, hr⟩ := h
  have hx := emod_diff i b.readIndex b.capacity hi0 hi hr0 hr
  by_cases he : b.readIndex = b.writeIndex
  · have he1 : rb_is_empty b = true := by simp [rb_is_empty, he]
    rw [if_pos (hec.mp he)]
    simp [rb_value_is_garbage, he1, pure, Except.pure]
  · have he1 : rb_is_empty b = false := by simp [rb_is_empty, he]
    rw [if_neg (mt hec.mpr he)]
    by_cases hf : (if b.writeIndex + 1 = b.capacity then 0 else b.writeIndex + 1) = b.readIndex
    · rw [if_pos (hfc.mp hf)]
      simp [rb_value_is_garbage, he1, hfull, hf, bind, Except.bind, pure, Except.pure]
    · rw [if_neg (mt hfc.mpr hf)]
      simp only [rb_value_is_garbage, he1, hfull, hf, bind, Except.bind, pure, Except.pure,
        decide_False, Bool.false_eq_true, if_false, Except.ok.injEq]
      rw [hx, hcnt, Bool.eq_iff_iff]
      split_ifs <;> simp only [Bool.or_eq_true, Bool.and_eq_true, decide_eq_true_eq] <;> omega

/-! ## Single calls -/

/-- C2. Successful write: on a state with capacity at least 2, cursors in range,
storage of `capacity` slots, and not full, `rb_write` returns `true`; the slot at
the old `writeIndex` holds the value, every other slot is unchanged, the new
`writeIndex` is `(writeIndex + 1) mod capacity`, and `readIndex` and `capacity`
are unchanged. -/
theorem rb_write_success (b : RingBuffer) (v : Int) (_hc : 2 ≤ b.capacity) (hr : InRange b)
    (hs : Shaped b) (hnf : rb_is_full b = .ok false) :
    ∃ b1, rb_write b v = .ok (true, b1) ∧
      load b1.start b.writeIndex = .ok v ∧
      (∀ i : Int, i ≠ b.writeIndex → load b1.start i = load b.start i) ∧
      b1.start.length = b.start.length ∧
      b1.writeIndex = (b.writeIndex + 1) % b.capacity ∧
      b1.readIndex = b.readIndex ∧ b1.capacity = b.capacity := by
  have hfull := rb_is_full_eq b hr
  rw [hnf] at hfull
  have hne : ¬ (if b.writeIndex + 1 = b.capacity then 0 else b.writeIndex + 1) = b.readIndex := by
    intro hx
    simp [hx] at hfull
  have hlen : b.writeIndex < (b.start.length : Int) := by
    have := hr.2.1
    unfold Shaped at hs
    omega
  refine ⟨{ b with start := b.start.set b.writeIndex.toNat v,
                     writeIndex := if b.writeIndex + 1 = b.capacity then 0 else b.writeIndex + 1 },
    by rw [rb_write_eq b v hr hs, if_neg hne], ?_, ?_, ?_, ?_, rfl, rfl⟩
  · exact load_set_same _ _ _ hr.1 hlen
  · intro i hi
    exact load_set_other _ _ _ _ hr.1 hi
  · simp
  · exact (emod_succ _ _ hr.1 hr.2.1).symm

theorem rb_write_success_witness :
    (2 ≤ (RingBuffer.mk [1, 2, 3, 0, 0] 5 3 0).capacity ∧
      InRange (RingBuffer.mk [1, 2, 3, 0, 0] 5 3 0) ∧ Shaped (RingBuffer.mk [1, 2, 3, 0, 0] 5 3 0) ∧
      rb_is_full (RingBuffer.mk [1, 2, 3, 0, 0] 5 3 0) = .ok false) ∧
    ∃ b1, rb_write (RingBuffer.mk [1, 2, 3, 0, 0] 5 3 0) 4 = .ok (true, b1) ∧
      load b1.start 3 = .ok 4 ∧
      (∀ i : Int, i ≠ 3 → load b1.start i = load [1, 2, 3, 0, 0] i) ∧
      b1.start.length = 5 ∧ b1.writeIndex = (3 + 1) % 5 ∧ b1.readIndex = 0 ∧ b1.capacity = 5 :=
  ⟨by decide,
   rb_write_success (RingBuffer.mk [1, 2, 3, 0, 0] 5 3 0) 4 (by decide) (by decide) (by decide)
     (by decide)⟩

/-- C3. Successful read: on a state with capacity at least 2, cursors in range,
storage of `capacity` slots, and not empty, `rb_read` returns `true`; the output
is the slot at the old `readIndex`, the new `readIndex` is
`(readIndex + 1) mod capacity`, and `writeIndex`, `capacity` and the whole slot
storage (the vacated slot included) are unchanged. -/
theorem rb_read_success (b : RingBuffer) (out : Int) (_hc : 2 ≤ b.capacity) (hr : InRange b)
    (hs : Shaped b) (hne : rb_is_empty b = false) :
    ∃ b1 x, rb_read b out = .ok (true, b1, x) ∧
      load b.start b.readIndex = .ok x ∧
      b1.readIndex = (b.readIndex + 1) % b.capacity ∧
      b1.writeIndex = b.writeIndex ∧ b1.capacity = b.capacity ∧ b1.start = b.start := by
  have hrw : ¬ b.readIndex = b.writeIndex := by
    simpa [rb_is_empty] using hne
  have hlen : 0 ≤ b.readIndex ∧ b.readIndex < (b.start.length : Int) := by
    have := hr.2.2
    unfold Shaped at hs
    omega
  refine ⟨{ b with readIndex := if b.readIndex + 1 = b.capacity then 0 else b.readIndex + 1 },
    b.start.getD b.readIndex.toNat 0,
    by rw [rb_read_eq b out hr hs, if_neg hrw], ?_, ?_, rfl, rfl, rfl⟩
  · simp [load, hlen]
  · exact (emod_succ _ _ hr.2.2.1 hr.2.2.2).symm

theorem rb_read_success_witness :
    (2 ≤ (RingBuffer.mk [1, 2, 3, 0, 0] 5 3 0).capacity ∧
      InRange (RingBuffer.mk [1, 2, 3, 0, 0] 5 3 0) ∧ Shaped (RingBuffer.mk [1, 2, 3, 0, 0] 5 3 0) ∧
      rb_is_empty (RingBuffer.mk [1, 2, 3, 0, 0] 5 3 0) = false) ∧
    ∃ b1 x, rb_read (RingBuffer.mk [1, 2, 3, 0, 0] 5 3 0) 7 = .ok (true, b1, x) ∧
      load [1, 2, 3, 0, 0] 0 = .ok x ∧
      b1.readIndex = (0 + 1) % 5 ∧ b1.writeIndex = 3 ∧ b1.capacity = 5 ∧
      b1.start = [1, 2, 3, 0, 0] :=
  ⟨by decide,
   rb_read_success (RingBuffer.mk [1, 2, 3, 0, 0] 5 3 0) 7 (by decide) (by decide) (by decide)
     (by decide)⟩

/-- C4. Rejection is atomic and idempotent: on a full buffer `rb_write` returns
`false` and the buffer is unchanged; on an empty buffer `rb_read` returns
`false` and the buffer and the output variable are unchanged; any number of
repeated rejected calls all return `false` and leave the state as it was. -/
theorem rb_rejection_idempotent (bf be : RingBuffer) (hfull : rb_is_full bf = .ok true)
    (hempty : rb_is_empty be = true) :
    (∀ v, rb_write bf v = .ok (false, bf)) ∧
    (∀ out, rb_read be out = .ok (false, be, out)) ∧
    (∀ (vs : List Int) out, rb_run bf out (vs.map Op.write)
        = .ok (vs.map (fun v => Event.wrote v false), bf, out)) ∧
    (∀ (n : Nat) out, rb_run be out (List.replicate n Op.read)
        = .ok (List.replicate n (Event.readOut false out), be, out)) := by
  have hw : ∀ v, rb_write bf v = .ok (false, bf) := by
    intro v
    simp [rb_write, hfull, bind, Except.bind, pure, Except.pure]
  have hrd : ∀ out, rb_read be out = .ok (false, be, out) := by
    intro out
    simp [rb_read, hempty, pure, Except.pure]
  refine ⟨hw, hrd, ?_, ?_⟩
  · intro vs out
    induction vs with
    | nil => rfl
    | cons v vs ih =>
      simp only [List.map_cons, rb_run, hw v, ih, bind, Except.bind, pure, Except.pure]
  · intro n out
    induction n with
    | zero => rfl
    | succ n ih =>
      simp only [List.replicate_succ, rb_run, hrd out, ih, bind, Except.bind, pure, Except.pure]

theorem rb_rejection_idempotent_witness :
    (rb_is_full (RingBuffer.mk [1, 2, 3, 4, 0] 5 4 0) = .ok true ∧
      rb_is_empty (RingBuffer.mk [1, 2, 3, 0, 0] 5 3 3) = true) ∧
    rb_write (RingBuffer.mk [1, 2, 3, 4, 0] 5 4 0) 9 = .ok (false, RingBuffer.mk [1, 2, 3, 4, 0] 5 4 0) ∧
    rb_read (RingBuffer.mk [1, 2, 3, 0, 0] 5 3 3) 7 = .ok (false, RingBuffer.mk [1, 2, 3, 0, 0] 5 3 3, 7) :=
  ⟨by decide,
   (rb_rejection_idempotent (RingBuffer.mk [1, 2, 3, 4, 0] 5 4 0) (RingBuffer.mk [1, 2, 3, 0, 0] 5 3 3)
      (by decide) (by decide)).1 9,
   (rb_rejection_idempotent (RingBuffer.mk [1, 2, 3, 4, 0] 5 4 0) (RingBuffer.mk [1, 2, 3, 0, 0] 5 3 3)
      (by decide) (by decide)).2.1 7⟩

/-- C7. Creation: for `c ≥ 2`, `rb_new c` has capacity `c`, `c` slots all equal
to 0, both cursors at 0, is empty and is not full. -/
theorem rb_new_state (c : Int) (hc : 2 ≤ c) :
    (rb_new c).capacity = c ∧ ((rb_new c).start.length : Int) = c ∧
    (∀ x ∈ (rb_new c).start, x = 0) ∧
    (rb_new c).writeIndex = 0 ∧ (rb_new c).readIndex = 0 ∧
    rb_is_empty (rb_new c) = true ∧ rb_is_full (rb_new c) = .ok false := by
  refine ⟨rfl, rb_new_shaped c (by omega), ?_, rfl, rfl, ?_, ?_⟩
  · intro x hx
    exact List.eq_of_mem_replicate hx
  · simp [rb_is_empty, rb_new]
  · rw [rb_is_full_eq _ (rb_new_inRange c (by omega))]
    have h1 : ¬ (1 : Int) = c := by omega
    simp [rb_new, h1]

theorem rb_new_state_witness :
    (2 : Int) ≤ 5 ∧ rb_new 5 = RingBuffer.mk [0, 0, 0, 0, 0] 5 0 0 ∧
      rb_is_empty (rb_new 5) = true ∧ rb_is_full (rb_new 5) = .ok false :=
  ⟨by decide, by decide, (rb_new_state 5 (by decide)).2.2.2.2.2.1,
    (rb_new_state 5 (by decide)).2.2.2.2.2.2⟩

/-- C5. Fill count: for `c ≥ 2` and any `c - 1` values, starting from `rb_new c`
the first `k` writes all return `true` for every `k ≤ c - 1`, and after them
`rb_is_full` is `false` when `k < c - 1` and `true` when `k = c - 1`; after the
`c - 1` writes one more `rb_write` returns `false` and leaves the state
unchanged. -/
theorem rb_fill_count (c : Int) (hc : 2 ≤ c) (vs : List Int) (hlen : (vs.length : Int) = c - 1)
    (extra out : Int) :
    (∀ k, k ≤ vs.length →
      ∃ b, rb_run (rb_new c) out ((vs.take k).map Op.write)
            = .ok ((vs.take k).map (fun v => Event.wrote v true), b, out) ∧
        rb_is_full b = .ok (decide (k = vs.length))) ∧
    (∃ b, rb_run (rb_new c) out (vs.map Op.write)
            = .ok (vs.map (fun v => Event.wrote v true), b, out) ∧
        rb_write b extra = .ok (false, b)) := by
  have key : ∀ k, k ≤ vs.length →
      ∃ b, rb_run (rb_new c) out ((vs.take k).map Op.write)
            = .ok ((vs.take k).map (fun v => Event.wrote v true), b, out) ∧
        InRange b ∧ Shaped b ∧ b.capacity = c ∧ b.readIndex = 0 ∧ b.writeIndex = k := by
    intro k hk
    have htl : (vs.take k).length = k := by simp [hk]
    obtain ⟨b, hrun, hr, hs, hcap, hrd, hw⟩ :=
      rb_run_fill (vs.take k) (rb_new c) out (rb_new_inRange c (by omega))
        (rb_new_shaped c (by omega)) rfl (by
          show (0 : Int) + ((vs.take k).length : Int) ≤ c - 1
          rw [htl]; omega)
    refine ⟨b, hrun, hr, hs, hcap, hrd, ?_⟩
    rw [hw, htl]
    show (0 : Int) + (k : Int) = k
    omega
  constructor
  · intro k hk
    obtain ⟨b, hrun, hr, _, hcap, hrd, hw⟩ := key k hk
    refine ⟨b, hrun, ?_⟩
    rw [rb_is_full_eq b hr, hcap, hrd, hw]
    congr 1
    by_cases hkl : k = vs.length
    · have : (k : Int) + 1 = c := by omega
      rw [if_pos this]
      simp [hkl]
    · have : ¬ (k : Int) + 1 = c := by omega
      have h2 : ¬ (k : Int) + 1 = 0 := by omega
      simp [hkl, this, h2]
  · obtain ⟨b, hrun, hr, hs, hcap, hrd, hw⟩ := key vs.length (le_refl _)
    rw [List.take_length] at hrun
    refine ⟨b, hrun, ?_⟩
    rw [rb_write_eq b extra hr hs, hcap, hrd, hw]
    have : (vs.length : Int) + 1 = c := by omega
    simp [this]

theorem rb_fill_count_witness :
    ((2 : Int) ≤ 3 ∧ (([7, 8] : List Int).length : Int) = 3 - 1) ∧
    ∃ b, rb_run (rb_new 3) 0 (([7, 8] : List Int).map Op.write)
            = .ok (([7, 8] : List Int).map (fun v => Event.wrote v true), b, 0) ∧
        rb_write b 9 = .ok (false, b) :=
  ⟨by decide, (rb_fill_count 3 (by decide) [7, 8] (by decide) 9 0).2⟩

/-! ## Sequences of calls from a fresh buffer -/

/-- C1. FIFO order: for `c ≥ 2` and any sequence of `rb_write` / `rb_read`
calls on `rb_new c`, the run completes and the values delivered by the
successful reads are the prefix, of the same length, of the values of the
successful writes: the `n`-th successful read yields the `n`-th successfully
written value. -/
theorem rb_fifo (c : Int) (hc : 2 ≤ c) (ops : List Op) (out : Int) :
    ∃ evs b out1, rb_run (rb_new c) out ops = .ok (evs, b, out1) ∧
      delivered evs = (written evs).take (delivered evs).length ∧
      (delivered evs).length ≤ (written evs).length ∧
      ∀ n, n < (delivered evs).length → (delivered evs)[n]? = (written evs)[n]? := by
  obtain ⟨evs, b, out1, hrun, _, _, _, hinv⟩ :=
    rb_run_inv ops (rb_new c) out (rb_new_inRange c (by omega)) (rb_new_shaped c (by omega))
  rw [rb_contents_new, List.nil_append] at hinv
  refine ⟨evs, b, out1, hrun, ?_, ?_, ?_⟩
  · rw [hinv, List.take_left]
  · rw [hinv, List.length_append]
    omega
  · intro n hn
    rw [hinv, List.getElem?_append_left hn]

theorem rb_fifo_witness :
    (2 : Int) ≤ 3 ∧
    ∃ evs b out1, rb_run (rb_new 3) 0 [Op.write 7, Op.write 8, Op.write 9, Op.read, Op.write 4,
        Op.read, Op.read, Op.read] = .ok (evs, b, out1) ∧
      delivered evs = (written evs).take (delivered evs).length ∧
      (delivered evs).length ≤ (written evs).length ∧
      ∀ n, n < (delivered evs).length → (delivered evs)[n]? = (written evs)[n]? :=
  ⟨by decide, rb_fifo 3 (by decide) _ 0⟩

/-- C8. Cursor bounds: for `c ≥ 1` both cursors of `rb_new c` lie in
`[0, capacity)`; every `rb_write` and `rb_read`, accepted or rejected, that
starts with the cursors in range ends with them in range and with the same
capacity, and returns whenever the storage has `capacity` slots; hence every
state reached from `rb_new c` has its cursors in range and capacity `c`. -/
theorem rb_cursor_bounds (c : Int) (hc : 1 ≤ c) :
    InRange (rb_new c) ∧ (rb_new c).capacity = c ∧
    (∀ b v ok b1, InRange b → rb_write b v = .ok (ok, b1) →
      InRange b1 ∧ b1.capacity = b.capacity) ∧
    (∀ b out ok b1 out1, InRange b → rb_read b out = .ok (ok, b1, out1) →
      InRange b1 ∧ b1.capacity = b.capacity) ∧
    (∀ b v, InRange b → Shaped b → ∃ ok b1, rb_write b v = .ok (ok, b1)) ∧
    (∀ b out, InRange b → Shaped b → ∃ ok b1 out1, rb_read b out = .ok (ok, b1, out1)) ∧
    (∀ ops out, ∃ evs b out1, rb_run (rb_new c) out ops = .ok (evs, b, out1) ∧
      InRange b ∧ b.capacity = c) := by
  refine ⟨rb_new_inRange c hc, rfl, ?_, ?_, ?_, ?_, ?_⟩
  · intro b v ok b1 h hw
    have hnx := next_inRange _ _ h.1 h.2.1
    simp only [rb_write, rb_is_full_eq b h, store, cmod_succ _ _ h.1 h.2.1, bind, Except.bind,
      pure, Except.pure] at hw
    by_cases hf : (if b.writeIndex + 1 = b.capacity then 0 else b.writeIndex + 1) = b.readIndex
    · simp only [hf, decide_True, if_true, Except.ok.injEq, Prod.mk.injEq] at hw
      rw [← hw.2]
      exact ⟨h, rfl⟩
    · by_cases hb : 0 ≤ b.writeIndex ∧ b.writeIndex < (b.start.length : Int)
      · simp only [hf, hb, decide_False, and_self, if_true, Bool.false_eq_true, if_false,
          Except.ok.injEq, Prod.mk.injEq] at hw
        rw [← hw.2]
        exact ⟨⟨hnx.1, hnx.2, h.2.2.1, h.2.2.2⟩, rfl⟩
      · simp [hf, hb] at hw
  · intro b out ok b1 out1 h hrd
    have hnx := next_inRange _ _ h.2.2.1 h.2.2.2
    simp only [rb_read, rb_is_empty, load, cmod_succ _ _ h.2.2.1 h.2.2.2, bind, Except.bind,
      pure, Except.pure] at hrd
    by_cases he : b.readIndex = b.writeIndex
    · simp only [he, beq_self_eq_true, if_true, Except.ok.injEq, Prod.mk.injEq] at hrd
      rw [← hrd.2.1]
      exact ⟨h, rfl⟩
    · by_cases hb : 0 ≤ b.readIndex ∧ b.readIndex < (b.start.length : Int)
      · simp only [he, hb, beq_iff_eq, and_self, if_true, if_false, Except.ok.injEq,
          Prod.mk.injEq] at hrd
        rw [← hrd.2.1]
        exact ⟨⟨h.1, h.2.1, hnx.1, hnx.2⟩, rfl⟩
      · simp [he, hb] at hrd
  · intro b v h hs
    obtain ⟨ok, b1, hw, _⟩ := rb_write_step b v h hs
    exact ⟨ok, b1, hw⟩
  · intro b out h hs
    obtain ⟨ok, b1, out1, hrd, _⟩ := rb_read_step b out h hs
    exact ⟨ok, b1, out1, hrd⟩
  · intro ops out
    obtain ⟨evs, b, out1, hrun, h1, _, hcap, _⟩ :=
      rb_run_inv ops (rb_new c) out (rb_new_inRange c hc) (rb_new_shaped c (by omega))
    exact ⟨evs, b, out1, hrun, h1, hcap⟩

theorem rb_cursor_bounds_witness :
    (1 : Int) ≤ 1 ∧ InRange (rb_new 1) ∧
    ∃ evs b out1, rb_run (rb_new 1) 0 [Op.write 7, Op.read] = .ok (evs, b, out1) ∧
      InRange b ∧ b.capacity = 1 :=
  ⟨by decide, (rb_cursor_bounds 1 (by decide)).1,
    (rb_cursor_bounds 1 (by decide)).2.2.2.2.2.2 [Op.write 7, Op.read] 0⟩

/-- C9. Usable capacity is `capacity - 1`: for `c ≥ 2` and any sequence of calls
on `rb_new c`, the number `n` of successful writes minus successful reads
satisfies `0 ≤ n ≤ c - 1` and `n = (writeIndex - readIndex) mod c` in the final
state, which is empty iff `n = 0` and full iff `n = c - 1`. -/
theorem rb_usable_capacity (c : Int) (hc : 2 ≤ c) (ops : List Op) (out : Int) :
    ∃ evs b out1, rb_run (rb_new c) out ops = .ok (evs, b, out1) ∧
      0 ≤ ((written evs).length : Int) - (delivered evs).length ∧
      ((written evs).length : Int) - (delivered evs).length ≤ c - 1 ∧
      ((written evs).length : Int) - (delivered evs).length
        = (b.writeIndex - b.readIndex) % c ∧
      rb_is_empty b = decide (((written evs).length : Int) - (delivered evs).length = 0) ∧
      rb_is_full b = .ok (decide (((written evs).length : Int) - (delivered evs).length = c - 1)) := by
  obtain ⟨evs, b, out1, hrun, h1, _, hcap, hinv⟩ :=
    rb_run_inv ops (rb_new c) out (rb_new_inRange c (by omega)) (rb_new_shaped c (by omega))
  rw [rb_contents_new, List.nil_append] at hinv
  have hbd := rb_count_bounds b h1
  have hlen : ((written evs).length : Int) - (delivered evs).length = rb_count b := by
    have hl := rb_contents_length b
    rw [max_eq_left hbd.1] at hl
    rw [hinv, List.length_append, ← hl]
    push_cast
    omega
  have hcap1 : b.capacity = c := hcap
  refine ⟨evs, b, out1, hrun, ?_, ?_, ?_, ?_, ?_⟩
  · rw [hlen]; exact hbd.1
  · rw [hlen, ← hcap1]; exact hbd.2
  · rw [hlen, ← hcap1]; rfl
  all_goals rw [hlen]
  · simp only [rb_is_empty, ← empty_iff_count b h1]
    by_cases he : b.readIndex = b.writeIndex <;> simp [he]
  · rw [rb_is_full_eq b h1, ← hcap1]
    congr 1
    by_cases hf : (if b.writeIndex + 1 = b.capacity then 0 else b.writeIndex + 1) = b.readIndex
    · simp [hf, (full_iff_count b h1).mp hf]
    · have := mt (full_iff_count b h1).mpr hf
      simp [hf, this]

theorem rb_usable_capacity_witness :
    (2 : Int) ≤ 3 ∧
    ∃ evs b out1, rb_run (rb_new 3) 0 [Op.write 7, Op.write 8, Op.write 9, Op.read]
        = .ok (evs, b, out1) ∧
      0 ≤ ((written evs).length : Int) - (delivered evs).length ∧
      ((written evs).length : Int) - (delivered evs).length ≤ 3 - 1 ∧
      ((written evs).length : Int) - (delivered evs).length
        = (b.writeIndex - b.readIndex) % 3 ∧
      rb_is_empty b = decide (((written evs).length : Int) - (delivered evs).length = 0) ∧
      rb_is_full b = .ok (decide (((written evs).length : Int) - (delivered evs).length = 3 - 1)) :=
  ⟨by decide, rb_usable_capacity 3 (by decide) _ 0⟩

/-! ## Round trip -/

/-- C6 as stated fails: from the empty buffer `rb_new 5` (`writeIndex = 0`),
writing 1, 2, 3 and reading three times ends empty with
`readIndex = writeIndex = 3`, which is not the `writeIndex` before the writes. -/
theorem rb_round_trip_counterexample :
    (2 ≤ (rb_new 5).capacity ∧ InRange (rb_new 5) ∧ Shaped (rb_new 5) ∧
      rb_is_empty (rb_new 5) = true ∧ (([1, 2, 3] : List Int).length : Int) ≤ 5 - 1) ∧
    rb_run (rb_new 5) 0
        (([1, 2, 3] : List Int).map Op.write ++ List.replicate ([1, 2, 3] : List Int).length Op.read)
      = .ok ([Event.wrote 1 true, Event.wrote 2 true, Event.wrote 3 true,
              Event.readOut true 1, Event.readOut true 2, Event.readOut true 3],
             RingBuffer.mk [1, 2, 3, 0, 0] 5 3 3, 3) ∧
    (rb_new 5).writeIndex = 0 ∧
    (RingBuffer.mk [1, 2, 3, 0, 0] 5 3 3).readIndex ≠ (rb_new 5).writeIndex := by
  decide

/-- C6, amended. Round trip: on an empty buffer with capacity `c ≥ 2`, cursors
in range and `c` slots, writing `k ≤ c - 1` values and then reading `k` times
succeeds at every call, delivers the values in order, and ends empty with
`readIndex = writeIndex = (original writeIndex + k) mod c`, the write cursor
reached by the writes. -/
theorem rb_round_trip (b : RingBuffer) (vs : List Int) (out : Int) (_hc : 2 ≤ b.capacity)
    (hr : InRange b) (hs : Shaped b) (he : rb_is_empty b = true)
    (hk : (vs.length : Int) ≤ b.capacity - 1) :
    ∃ b1 out1, rb_run b out (vs.map Op.write ++ List.replicate vs.length Op.read)
        = .ok (vs.map (fun v => Event.wrote v true) ++ vs.map (fun x => Event.readOut true x),
               b1, out1) ∧
      rb_is_empty b1 = true ∧ b1.readIndex = b1.writeIndex ∧
      b1.writeIndex = (b.writeIndex + vs.length) % b.capacity ∧
      b1.capacity = b.capacity := by
  have hrw : b.readIndex = b.writeIndex := by
    simpa [rb_is_empty] using he
  have hcount : rb_count b = 0 := (empty_iff_count b hr).mp hrw
  have hcont : rb_contents b = [] := by
    simp [rb_contents, hcount]
  obtain ⟨bw, hrunw, hrw1, hsw, hcw, _, hww, hcntw, hcontw⟩ :=
    rb_run_writes vs b out hr hs (by omega)
  obtain ⟨b1, out1, hrunr, hr1, _, hc1, hw1, _, _, hcnt1, _⟩ :=
    rb_run_reads vs.length bw out hrw1 hsw (by omega)
  have htake : (rb_contents bw).take vs.length = vs := by
    rw [hcontw, hcont, List.nil_append, List.take_length]
  rw [htake] at hrunr
  have hempty : b1.readIndex = b1.writeIndex := by
    rw [empty_iff_count b1 hr1]; omega
  refine ⟨b1, out1, rb_run_append _ _ _ _ _ _ _ _ _ _ hrunw hrunr, ?_, hempty, ?_, hc1.trans hcw⟩
  · simp [rb_is_empty, hempty]
  · rw [hw1, hww]

theorem rb_round_trip_witness :
    (2 ≤ (RingBuffer.mk [1, 2, 3, 0, 0] 5 3 3).capacity ∧
      InRange (RingBuffer.mk [1, 2, 3, 0, 0] 5 3 3) ∧ Shaped (RingBuffer.mk [1, 2, 3, 0, 0] 5 3 3) ∧
      rb_is_empty (RingBuffer.mk [1, 2, 3, 0, 0] 5 3 3) = true ∧
      (([4, 5, 6, 7] : List Int).length : Int) ≤ 5 - 1) ∧
    ∃ b1 out1, rb_run (RingBuffer.mk [1, 2, 3, 0, 0] 5 3 3) 0
        (([4, 5, 6, 7] : List Int).map Op.write
          ++ List.replicate ([4, 5, 6, 7] : List Int).length Op.read)
        = .ok (([4, 5, 6, 7] : List Int).map (fun v => Event.wrote v true)
                ++ ([4, 5, 6, 7] : List Int).map (fun x => Event.readOut true x), b1, out1) ∧
      rb_is_empty b1 = true ∧ b1.readIndex = b1.writeIndex ∧
      b1.writeIndex = (3 + (([4, 5, 6, 7] : List Int).length : Int)) % 5 ∧
      b1.capacity = 5 :=
  ⟨by decide,
   rb_round_trip (RingBuffer.mk [1, 2, 3, 0, 0] 5 3 3) [4, 5, 6, 7] 0 (by decide) (by decide)
     (by decide) (by decide) (by decide)⟩

/-! ## Garbage classification -/

/-- C10. Garbage classification of a partially filled buffer: with capacity at
least 2, cursors in range, neither empty nor full, and `0 ≤ i < capacity`,
`rb_value_is_garbage` returns `true` iff
`(i - readIndex) mod capacity ≥ (writeIndex - readIndex) mod capacity`; when
`readIndex > writeIndex` that is iff `writeIndex ≤ i < readIndex`. -/
theorem rb_garbage_partial (b : RingBuffer) (i : Int) (_hc : 2 ≤ b.capacity) (hr : InRange b)
    (hne : rb_is_empty b = false) (hnf : rb_is_full b = .ok false)
    (hi0 : 0 ≤ i) (hi : i < b.capacity) :
    rb_value_is_garbage b i
      = .ok (decide ((i - b.readIndex) % b.capacity ≥ (b.writeIndex - b.readIndex) % b.capacity)) ∧
    (b.readIndex > b.writeIndex →
      rb_value_is_garbage b i = .ok (decide (b.writeIndex ≤ i ∧ i < b.readIndex))) := by
  obtain ⟨hw0, hw, hr0, hr1⟩ := hr
  have hrw : ¬ b.readIndex = b.writeIndex := by
    simpa [rb_is_empty] using hne
  have hval : rb_value_is_garbage b i
      = .ok (if b.readIndex ≤ b.writeIndex
          then decide (i < b.readIndex) || decide (i ≥ b.writeIndex)
          else decide (i < b.readIndex) && decide (i ≥ b.writeIndex)) := by
    simp [rb_value_is_garbage, hne, hnf, bind, Except.bind, pure, Except.pure]
  have hd := emod_diff b.writeIndex b.readIndex b.capacity hw0 hw hr0 hr1
  have hi' := emod_diff i b.readIndex b.capacity hi0 hi hr0 hr1
  constructor
  · rw [hval, hd, hi']
    congr 1
    by_cases h1 : b.readIndex ≤ b.writeIndex
    · by_cases h2 : b.readIndex ≤ i
      · simp only [h1, h2, if_true, ge_iff_le, Bool.or_eq_true, decide_eq_true_eq]
        rw [Bool.eq_iff_iff]
        simp only [Bool.or_eq_true, decide_eq_true_eq]
        omega
      · simp only [h1, h2, if_true, if_false, ge_iff_le]
        rw [Bool.eq_iff_iff]
        simp only [Bool.or_eq_true, decide_eq_true_eq]
        omega
    · by_cases h2 : b.readIndex ≤ i
      · simp only [h1, h2, if_true, if_false, ge_iff_le]
        rw [Bool.eq_iff_iff]
        simp only [Bool.and_eq_true, decide_eq_true_eq]
        omega
      · simp only [h1, h2, if_false, ge_iff_le]
        rw [Bool.eq_iff_iff]
        simp only [Bool.and_eq_true, decide_eq_true_eq]
        omega
  · intro hgt
    have h1 : ¬ b.readIndex ≤ b.writeIndex := by omega
    rw [hval, if_neg h1]
    congr 1
    rw [Bool.eq_iff_iff]
    simp only [Bool.and_eq_true, decide_eq_true_eq]
    omega

theorem rb_garbage_partial_witness :
    (2 ≤ (RingBuffer.mk [6, 2, 3, 4, 5] 5 1 3).capacity ∧
      InRange (RingBuffer.mk [6, 2, 3, 4, 5] 5 1 3) ∧
      rb_is_empty (RingBuffer.mk [6, 2, 3, 4, 5] 5 1 3) = false ∧
      rb_is_full (RingBuffer.mk [6, 2, 3, 4, 5] 5 1 3) = .ok false ∧
      (0 : Int) ≤ 2 ∧ (2 : Int) < (RingBuffer.mk [6, 2, 3, 4, 5] 5 1 3).capacity) ∧
    rb_value_is_garbage (RingBuffer.mk [6, 2, 3, 4, 5] 5 1 3) 2
      = .ok (decide (((2 : Int) - 3) % 5 ≥ ((1 : Int) - 3) % 5)) ∧
    ((3 : Int) > 1 →
      rb_value_is_garbage (RingBuffer.mk [6, 2, 3, 4, 5] 5 1 3) 2
        = .ok (decide ((1 : Int) ≤ 2 ∧ (2 : Int) < 3))) :=
  ⟨by decide,
   rb_garbage_partial (RingBuffer.mk [6, 2, 3, 4, 5] 5 1 3) 2 (by decide) (by decide) (by decide)
     (by decide) (by decide) (by decide)⟩

/-- C12. Garbage classification at the extremes: for every index,
`rb_value_is_garbage` returns `true` on a buffer for which `rb_is_empty` holds,
and returns `false` on a buffer that is not empty and for which `rb_is_full`
holds. -/
theorem rb_garbage_extremes (be bf : RingBuffer) (i : Int) (he : rb_is_empty be = true)
    (hne : rb_is_empty bf = false) (hf : rb_is_full bf = .ok true) :
    rb_value_is_garbage be i = .ok true ∧ rb_value_is_garbage bf i = .ok false := by
  constructor
  · simp [rb_value_is_garbage, he, pure, Except.pure]
  · simp [rb_value_is_garbage, hne, hf, bind, Except.bind, pure, Except.pure]

theorem rb_garbage_extremes_witness :
    (rb_is_empty (RingBuffer.mk [1, 2, 3, 0, 0] 5 3 3) = true ∧
      rb_is_empty (RingBuffer.mk [1, 2, 3, 4, 0] 5 4 0) = false ∧
      rb_is_full (RingBuffer.mk [1, 2, 3, 4, 0] 5 4 0) = .ok true) ∧
    rb_value_is_garbage (RingBuffer.mk [1, 2, 3, 0, 0] 5 3 3) 1 = .ok true ∧
    rb_value_is_garbage (RingBuffer.mk [1, 2, 3, 4, 0] 5 4 0) 1 = .ok false :=
  ⟨by decide,
   rb_garbage_extremes (RingBuffer.mk [1, 2, 3, 0, 0] 5 3 3) (RingBuffer.mk [1, 2, 3, 4, 0] 5 4 0) 1
     (by decide) (by decide) (by decide)⟩

/-- C20. Classification of the cursor slots: with capacity at least 2 and
cursors in range, the slot at `readIndex` is not garbage whenever the buffer is
not empty, and the slot at `writeIndex` is garbage whenever the buffer is not
full. -/
theorem rb_garbage_cursor_slots (b : RingBuffer) (_hc : 2 ≤ b.capacity) (hr : InRange b) :
    (rb_is_empty b = false → rb_value_is_garbage b b.readIndex = .ok false) ∧
    (rb_is_full b = .ok false → rb_value_is_garbage b b.writeIndex = .ok true) := by
  have hfull := rb_is_full_eq b hr
  constructor
  · intro hne
    have hrw : ¬ b.readIndex = b.writeIndex := by
      simpa [rb_is_empty] using hne
    by_cases hf : (if b.writeIndex + 1 = b.capacity then 0 else b.writeIndex + 1) = b.readIndex
    · simp [rb_value_is_garbage, hne, hfull, hf, bind, Except.bind, pure, Except.pure]
    · simp only [rb_value_is_garbage, hne, hfull, hf, bind, Except.bind, pure, Except.pure,
        decide_False, Bool.false_eq_true, if_false, lt_self_iff_false, Bool.false_or,
        Bool.false_and, ge_iff_le, Except.ok.injEq]
      split
      · simp only [decide_eq_false_iff_not, not_le]
        omega
      · rfl
  · intro hnf
    by_cases he : rb_is_empty b = true
    · simp [rb_value_is_garbage, he, pure, Except.pure]
    · have he1 : rb_is_empty b = false := by simpa using he
      simp [rb_value_is_garbage, he1, hnf, bind, Except.bind, pure, Except.pure]
      omega

theorem rb_garbage_cursor_slots_witness :
    (2 ≤ (RingBuffer.mk [6, 2, 3, 4, 5] 5 1 3).capacity ∧
      InRange (RingBuffer.mk [6, 2, 3, 4, 5] 5 1 3) ∧
      rb_is_empty (RingBuffer.mk [6, 2, 3, 4, 5] 5 1 3) = false ∧
      rb_is_full (RingBuffer.mk [6, 2, 3, 4, 5] 5 1 3) = .ok false) ∧
    rb_value_is_garbage (RingBuffer.mk [6, 2, 3, 4, 5] 5 1 3) 3 = .ok false ∧
    rb_value_is_garbage (RingBuffer.mk [6, 2, 3, 4, 5] 5 1 3) 1 = .ok true :=
  ⟨by decide,
   (rb_garbage_cursor_slots (RingBuffer.mk [6, 2, 3, 4, 5] 5 1 3) (by decide) (by decide)).1
     (by decide),
   (rb_garbage_cursor_slots (RingBuffer.mk [6, 2, 3, 4, 5] 5 1 3) (by decide) (by decide)).2
     (by decide)⟩

/-! ## Unchecked arguments -/

/-- C16 as stated fails: there is no buffer state and out-of-range index at
which `rb_value_is_garbage` touches a slot outside the storage or has a result
that depends on the slot storage. -/
theorem rb_garbage_no_slot_access :
    ¬ ∃ (b : RingBuffer) (s : List Int) (i : Int), (i < 0 ∨ b.capacity ≤ i) ∧
        (rb_value_is_garbage b i = .error .outOfBounds ∨
          rb_value_is_garbage { b with start := s } i ≠ rb_value_is_garbage b i) := by
  rintro ⟨b, s, i, _, h | h⟩
  · exact rb_value_is_garbage_in_bounds b i h
  · exact h rfl

/-- C16, amended. The function `rb_value_is_garbage` does not validate its index
and performs no slot access: for every buffer and every index, in range or not,
replacing the slot storage leaves the result unchanged, and the result is never
an out-of-bounds fault. -/
theorem rb_garbage_storage_independent (b : RingBuffer) (s : List Int) (i : Int) :
    rb_value_is_garbage { b with start := s } i = rb_value_is_garbage b i ∧
    rb_value_is_garbage b i ≠ .error .outOfBounds :=
  ⟨rfl, rb_value_is_garbage_in_bounds b i⟩

/-- C17. Capacity is not validated: `rb_new` returns a buffer for every integer
capacity; on a buffer of capacity 0, such as `rb_new 0`, `rb_is_full` and every
`rb_write` take a remainder with divisor 0; on a buffer of capacity at least 1
`rb_is_full` returns a Boolean and neither `rb_write` nor `rb_read` takes a
remainder with divisor 0. -/
theorem rb_capacity_unchecked (b : RingBuffer) (hb : 1 ≤ b.capacity) :
    (∀ c : Int, (rb_new c).capacity = c ∧ (rb_new c).writeIndex = 0 ∧ (rb_new c).readIndex = 0) ∧
    rb_is_full (rb_new 0) = .error .divByZero ∧
    (∀ v, rb_write (rb_new 0) v = .error .divByZero) ∧
    (∀ b0 : RingBuffer, b0.capacity = 0 →
      rb_is_full b0 = .error .divByZero ∧ ∀ v, rb_write b0 v = .error .divByZero) ∧
    (∃ r, rb_is_full b = .ok r) ∧
    (∀ v, rb_write b v ≠ .error .divByZero) ∧
    (∀ out, rb_read b out ≠ .error .divByZero) := by
  have hz : ∀ b0 : RingBuffer, b0.capacity = 0 →
      rb_is_full b0 = .error .divByZero ∧ ∀ v, rb_write b0 v = .error .divByZero := by
    intro b0 h0
    have hf := rb_is_full_of_zero b0 h0
    refine ⟨hf, ?_⟩
    intro v
    simp [rb_write, hf, bind, Except.bind]
  have hc : b.capacity ≠ 0 := by omega
  exact ⟨fun c => ⟨rfl, rfl, rfl⟩, (hz (rb_new 0) rfl).1, (hz (rb_new 0) rfl).2, hz,
    ⟨_, rb_is_full_of_ne b hc⟩, fun v => rb_write_no_div b v hc,
    fun out => rb_read_no_div b out hc⟩

theorem rb_capacity_unchecked_witness :
    1 ≤ (RingBuffer.mk [0] 1 0 0).capacity ∧
    rb_is_full (rb_new 0) = .error .divByZero ∧
    (∃ r, rb_is_full (RingBuffer.mk [0] 1 0 0) = .ok r) :=
  ⟨by decide, (rb_capacity_unchecked (RingBuffer.mk [0] 1 0 0) (by decide)).2.1,
    (rb_capacity_unchecked (RingBuffer.mk [0] 1 0 0) (by decide)).2.2.2.2.1⟩

/-! ## Empty against full -/

/-- C13. Empty and full are distinguishable exactly when capacity is at least 2:
on a state with capacity at least 1 and cursors in range, `rb_is_empty` and
`rb_is_full` both hold iff the capacity is 1; for `c ≥ 2` no state reached from
`rb_new c` is both empty and full; for capacity 1 every call of every run from
`rb_new 1` is rejected and the state stays `rb_new 1`, which is both. -/
theorem rb_empty_full_distinct (b : RingBuffer) (_hc : 1 ≤ b.capacity) (hr : InRange b) :
    ((rb_is_empty b = true ∧ rb_is_full b = .ok true) ↔ b.capacity = 1) ∧
    (∀ (c : Int) (ops : List Op) (out : Int), 2 ≤ c →
      ∃ evs b1 out1, rb_run (rb_new c) out ops = .ok (evs, b1, out1) ∧
        ¬ (rb_is_empty b1 = true ∧ rb_is_full b1 = .ok true)) ∧
    (∀ (ops : List Op) (out : Int), rb_run (rb_new 1) out ops
      = .ok (ops.map (fun op => match op with
              | Op.write v => Event.wrote v false
              | Op.read => Event.readOut false out), rb_new 1, out)) ∧
    rb_is_empty (rb_new 1) = true ∧ rb_is_full (rb_new 1) = .ok true := by
  have both : ∀ b : RingBuffer, InRange b →
      ((rb_is_empty b = true ∧ rb_is_full b = .ok true) ↔ b.capacity = 1) := by
    intro b hr
    rw [rb_is_full_eq b hr]
    obtain ⟨hw0, hw, hr0, hr1⟩ := hr
    simp only [rb_is_empty, beq_iff_eq, Except.ok.injEq, decide_eq_true_eq]
    constructor
    · rintro ⟨he, hf⟩
      split at hf <;> omega
    · intro h1
      have hwz : b.writeIndex = 0 := by omega
      have hrz : b.readIndex = 0 := by omega
      refine ⟨by omega, ?_⟩
      split <;> omega
  refine ⟨both b hr, ?_, ?_, by decide, by decide⟩
  · intro c ops out hc
    obtain ⟨evs, b1, out1, hrun, h1, _, hcap, _⟩ :=
      rb_run_inv ops (rb_new c) out (rb_new_inRange c (by omega)) (rb_new_shaped c (by omega))
    refine ⟨evs, b1, out1, hrun, ?_⟩
    intro hbf
    have h := (both b1 h1).mp hbf
    have hc1 : b1.capacity = c := hcap
    omega
  · intro ops out
    have hw : ∀ v, rb_write (rb_new 1) v = .ok (false, rb_new 1) := by
      intro v
      have hf : rb_is_full (rb_new 1) = .ok true := by decide
      simp [rb_write, hf, bind, Except.bind, pure, Except.pure]
    have hrd : rb_read (rb_new 1) out = .ok (false, rb_new 1, out) := by
      have he : rb_is_empty (rb_new 1) = true := by decide
      simp [rb_read, he, pure, Except.pure]
    induction ops with
    | nil => rfl
    | cons op ops ih =>
      cases op with
      | write v =>
        simp only [rb_run, hw v, ih, bind, Except.bind, pure, Except.pure, List.map_cons]
      | read =>
        simp only [rb_run, hrd, ih, bind, Except.bind, pure, Except.pure, List.map_cons]

theorem rb_empty_full_distinct_witness :
    (1 ≤ (RingBuffer.mk [1, 2, 3, 0, 0] 5 3 3).capacity ∧
      InRange (RingBuffer.mk [1, 2, 3, 0, 0] 5 3 3)) ∧
    ((rb_is_empty (RingBuffer.mk [1, 2, 3, 0, 0] 5 3 3) = true ∧
        rb_is_full (RingBuffer.mk [1, 2, 3, 0, 0] 5 3 3) = .ok true)
      ↔ (RingBuffer.mk [1, 2, 3, 0, 0] 5 3 3).capacity = 1) :=
  ⟨by decide,
   (rb_empty_full_distinct (RingBuffer.mk [1, 2, 3, 0, 0] 5 3 3) (by decide) (by decide)).1⟩

/-- C14. Refill after a read: on a full buffer with capacity at least 2, cursors
in range and `capacity` slots, `rb_write` is rejected, while after one `rb_read`
the next `rb_write` is accepted and the buffer is full again; an accepted write
at `writeIndex = capacity - 1` moves `writeIndex` to 0; with capacity 5, after 4
writes and one read the 5th write is accepted, lands in slot 4 and sets
`writeIndex` to 0. -/
theorem rb_refill_after_read (b : RingBuffer) (v out : Int) (hc : 2 ≤ b.capacity)
    (hr : InRange b) (hs : Shaped b) (hf : rb_is_full b = .ok true) :
    rb_write b v = .ok (false, b) ∧
    (∃ b1 x b2, rb_read b out = .ok (true, b1, x) ∧ rb_write b1 v = .ok (true, b2) ∧
      rb_is_full b2 = .ok true) ∧
    (∀ (b3 : RingBuffer) (v3 : Int) (b4 : RingBuffer), b3.writeIndex = b3.capacity - 1 →
      rb_write b3 v3 = .ok (true, b4) → b4.writeIndex = 0) ∧
    rb_run (rb_new 5) 0 [Op.write 1, Op.write 2, Op.write 3, Op.write 4, Op.read, Op.write 5]
      = .ok ([Event.wrote 1 true, Event.wrote 2 true, Event.wrote 3 true, Event.wrote 4 true,
              Event.readOut true 1, Event.wrote 5 true],
             RingBuffer.mk [1, 2, 3, 4, 5] 5 0 1, 1) := by
  have hfull : (if b.writeIndex + 1 = b.capacity then 0 else b.writeIndex + 1) = b.readIndex := by
    have h := rb_is_full_eq b hr
    rw [hf] at h
    simpa using h.symm
  have hcount : rb_count b = b.capacity - 1 := (full_iff_count b hr).mp hfull
  have hne : ¬ b.readIndex = b.writeIndex := by
    rw [empty_iff_count b hr]; omega
  refine ⟨?_, ?_, ?_, by decide⟩
  · simp [rb_write, hf, bind, Except.bind, pure, Except.pure]
  · have hread := rb_read_eq b out hr hs
    rw [if_neg hne] at hread
    have hcr := (rb_contents_read b hr hne).2
    have hnx := next_inRange _ _ hr.2.2.1 hr.2.2.2
    have hr1 : InRange
        { b with readIndex := if b.readIndex + 1 = b.capacity then 0 else b.readIndex + 1 } :=
      ⟨hr.1, hr.2.1, hnx.1, hnx.2⟩
    have hs1 : Shaped
        { b with readIndex := if b.readIndex + 1 = b.capacity then 0 else b.readIndex + 1 } := by
      simpa [Shaped] using hs
    have hnf1 := mt (full_iff_count _ hr1).mp (by rw [hcr]; simp only; omega)
    have hwrite := rb_write_eq _ v hr1 hs1
    rw [if_neg hnf1] at hwrite
    have hcw := (rb_contents_write _ v hr1 hs1 hnf1).2
    refine ⟨_, _, _, hread, hwrite, ?_⟩
    have hnx2 := next_inRange _ _ hr.1 hr.2.1
    have hr2 : InRange
        { start := b.start.set b.writeIndex.toNat v, capacity := b.capacity,
          writeIndex := if b.writeIndex + 1 = b.capacity then 0 else b.writeIndex + 1,
          readIndex := if b.readIndex + 1 = b.capacity then 0 else b.readIndex + 1 } :=
      ⟨hnx2.1, hnx2.2, hnx.1, hnx.2⟩
    have hfull2 := (full_iff_count _ hr2).mpr (by
      simp only at hcw hcr ⊢
      rw [hcw, hcr]; omega)
    rw [rb_is_full_eq _ hr2]
    simp only at hfull2 ⊢
    simp [hfull2]
  · intro b3 v3 b4 hw3 h
    have hc3 : b3.capacity ≠ 0 := by
      intro h0
      simp [rb_write, rb_is_full_of_zero b3 h0, bind, Except.bind] at h
    by_cases hf3 : (Int.tmod (b3.writeIndex + 1) b3.capacity == b3.readIndex) = true
    · simp [rb_write, rb_is_full_of_ne b3 hc3, hf3, bind, Except.bind, pure, Except.pure] at h
    · by_cases hb : 0 ≤ b3.writeIndex ∧ b3.writeIndex < (b3.start.length : Int)
      · simp only [rb_write, rb_is_full_of_ne b3 hc3, hf3, store, hb, cmod, hc3, bind,
          Except.bind, pure, Except.pure, and_self, if_true, if_false, Bool.false_eq_true,
          Except.ok.injEq, Prod.mk.injEq, true_and] at h
        rw [← h]
        show Int.tmod (b3.writeIndex + 1) b3.capacity = 0
        rw [hw3, Int.sub_add_cancel, Int.tmod_self]
      · simp [rb_write, rb_is_full_of_ne b3 hc3, hf3, store, hb, bind, Except.bind] at h

theorem rb_refill_after_read_witness :
    (2 ≤ (RingBuffer.mk [1, 2, 3, 4, 0] 5 4 0).capacity ∧
      InRange (RingBuffer.mk [1, 2, 3, 4, 0] 5 4 0) ∧ Shaped (RingBuffer.mk [1, 2, 3, 4, 0] 5 4 0) ∧
      rb_is_full (RingBuffer.mk [1, 2, 3, 4, 0] 5 4 0) = .ok true) ∧
    rb_write (RingBuffer.mk [1, 2, 3, 4, 0] 5 4 0) 5
      = .ok (false, RingBuffer.mk [1, 2, 3, 4, 0] 5 4 0) ∧
    ∃ b1 x b2, rb_read (RingBuffer.mk [1, 2, 3, 4, 0] 5 4 0) 0 = .ok (true, b1, x) ∧
      rb_write b1 5 = .ok (true, b2) ∧ rb_is_full b2 = .ok true :=
  ⟨by decide,
   (rb_refill_after_read (RingBuffer.mk [1, 2, 3, 4, 0] 5 4 0) 5 0 (by decide) (by decide)
      (by decide) (by decide)).1,
   (rb_refill_after_read (RingBuffer.mk [1, 2, 3, 4, 0] 5 4 0) 5 0 (by decide) (by decide)
      (by decide) (by decide)).2.1⟩

/-- C19. Array accesses stay in bounds: for `c ≥ 1` every run of calls from
`rb_new c` completes without a fault, the final storage has exactly `c` slots,
both cursors index a slot of it, and the slot access of the next `rb_write` (at
`writeIndex`) or `rb_read` (at `readIndex`) is in bounds. -/
theorem rb_accesses_in_bounds (c : Int) (hc : 1 ≤ c) (ops : List Op) (out : Int) :
    ∃ evs b out1, rb_run (rb_new c) out ops = .ok (evs, b, out1) ∧
      (b.start.length : Int) = c ∧
      (0 ≤ b.writeIndex ∧ b.writeIndex < (b.start.length : Int)) ∧
      (0 ≤ b.readIndex ∧ b.readIndex < (b.start.length : Int)) ∧
      (∀ v, store b.start b.writeIndex v = .ok (b.start.set b.writeIndex.toNat v)) ∧
      load b.start b.readIndex = .ok (b.start.getD b.readIndex.toNat 0) ∧
      (∀ v, rb_write b v ≠ .error .outOfBounds) ∧
      (∀ o, rb_read b o ≠ .error .outOfBounds) := by
  obtain ⟨evs, b, out1, hrun, h1, hs1, hcap, _⟩ :=
    rb_run_inv ops (rb_new c) out (rb_new_inRange c hc) (rb_new_shaped c (by omega))
  have hlen : (b.start.length : Int) = b.capacity := hs1
  have hcap1 : b.capacity = c := hcap
  obtain ⟨hw0, hw, hr0, hr⟩ := h1
  have hwb : 0 ≤ b.writeIndex ∧ b.writeIndex < (b.start.length : Int) := by omega
  have hrb : 0 ≤ b.readIndex ∧ b.readIndex < (b.start.length : Int) := by omega
  refine ⟨evs, b, out1, hrun, by omega, hwb, hrb, ?_, ?_, ?_, ?_⟩
  · intro v
    simp [store, hwb]
  · simp [load, hrb]
  · intro v h
    obtain ⟨ok, b1, hw1, _⟩ := rb_write_step b v ⟨hw0, hw, hr0, hr⟩ hs1
    rw [hw1] at h
    cases h
  · intro o h
    obtain ⟨ok, b1, o1, hr1, _⟩ := rb_read_step b o ⟨hw0, hw, hr0, hr⟩ hs1
    rw [hr1] at h
    cases h

theorem rb_accesses_in_bounds_witness :
    (1 : Int) ≤ 3 ∧
    ∃ evs b out1, rb_run (rb_new 3) 0 [Op.write 7, Op.write 8, Op.read, Op.write 9, Op.write 4]
        = .ok (evs, b, out1) ∧
      (b.start.length : Int) = 3 ∧
      (0 ≤ b.writeIndex ∧ b.writeIndex < (b.start.length : Int)) ∧
      (0 ≤ b.readIndex ∧ b.readIndex < (b.start.length : Int)) ∧
      (∀ v, store b.start b.writeIndex v = .ok (b.start.set b.writeIndex.toNat v)) ∧
      load b.start b.readIndex = .ok (b.start.getD b.readIndex.toNat 0) ∧
      (∀ v, rb_write b v ≠ .error .outOfBounds) ∧
      (∀ o, rb_read b o ≠ .error .outOfBounds) :=
  ⟨by decide, rb_accesses_in_bounds 3 (by decide) _ 0⟩

/-! ## Refinement of a bounded queue -/

/-- C18. Refinement of a bounded queue: with `rb_contents` the slots at
`(readIndex + j) mod capacity` for `j` below `(writeIndex - readIndex) mod
capacity`, on every state with capacity `c ≥ 2`, cursors in range and `c` slots,
`rb_write` acts on the contents as `bq_write` (accepted and appended when fewer
than `c - 1` values are held, rejected and unchanged when `c - 1` are) and
`rb_read` acts as `bq_read` (accepted with the head, leaving the tail, when
non-empty; rejected and unchanged when empty). -/
theorem rb_refines_queue (b : RingBuffer) (v out : Int) (_hc : 2 ≤ b.capacity) (hr : InRange b)
    (hs : Shaped b) :
    ((rb_contents b).length : Int) = (b.writeIndex - b.readIndex) % b.capacity ∧
    ((rb_contents b).length : Int) ≤ b.capacity - 1 ∧
    (∃ ok b1, rb_write b v = .ok (ok, b1) ∧
      (ok, rb_contents b1) = bq_write b.capacity (rb_contents b) v) ∧
    (∃ ok b1 out1, rb_read b out = .ok (ok, b1, out1) ∧
      (ok, rb_contents b1, out1) = bq_read (rb_contents b) out) := by
  have hbd := rb_count_bounds b hr
  have hlen : ((rb_contents b).length : Int) = rb_count b := by
    rw [rb_contents_length, max_eq_left hbd.1]
  refine ⟨hlen, by rw [hlen]; exact hbd.2, ?_, ?_⟩
  · by_cases hf : (if b.writeIndex + 1 = b.capacity then 0 else b.writeIndex + 1) = b.readIndex
    · refine ⟨false, b, by rw [rb_write_eq b v hr hs, if_pos hf], ?_⟩
      have hfull := (full_iff_count b hr).mp hf
      have hnot : ¬ ((rb_contents b).length : Int) < b.capacity - 1 := by omega
      simp only [bq_write, hnot, if_false]
    · refine ⟨true,
        { b with start := b.start.set b.writeIndex.toNat v,
                 writeIndex := if b.writeIndex + 1 = b.capacity then 0 else b.writeIndex + 1 },
        by rw [rb_write_eq b v hr hs, if_neg hf], ?_⟩
      have hnfull := mt (full_iff_count b hr).mpr hf
      have hlt : ((rb_contents b).length : Int) < b.capacity - 1 := by omega
      simp only [bq_write, hlt, if_true, (rb_contents_write b v hr hs hf).1]
  · by_cases he : b.readIndex = b.writeIndex
    · refine ⟨false, b, out, by rw [rb_read_eq b out hr hs, if_pos he], ?_⟩
      have hzero := (empty_iff_count b hr).mp he
      have hnil : rb_contents b = [] := by
        apply List.eq_nil_of_length_eq_zero
        omega
      simp only [hnil, bq_read]
    · refine ⟨true,
        { b with readIndex := if b.readIndex + 1 = b.capacity then 0 else b.readIndex + 1 },
        b.start.getD b.readIndex.toNat 0,
        by rw [rb_read_eq b out hr hs, if_neg he], ?_⟩
      rw [(rb_contents_read b hr he).1]
      simp only [bq_read]

theorem rb_refines_queue_witness :
    (2 ≤ (RingBuffer.mk [6, 2, 3, 4, 5] 5 1 3).capacity ∧
      InRange (RingBuffer.mk [6, 2, 3, 4, 5] 5 1 3) ∧
      Shaped (RingBuffer.mk [6, 2, 3, 4, 5] 5 1 3)) ∧
    rb_contents (RingBuffer.mk [6, 2, 3, 4, 5] 5 1 3) = [4, 5, 6] ∧
    (∃ ok b1, rb_write (RingBuffer.mk [6, 2, 3, 4, 5] 5 1 3) 7 = .ok (ok, b1) ∧
      (ok, rb_contents b1) = bq_write 5 (rb_contents (RingBuffer.mk [6, 2, 3, 4, 5] 5 1 3)) 7) ∧
    (∃ ok b1 out1, rb_read (RingBuffer.mk [6, 2, 3, 4, 5] 5 1 3) 0 = .ok (ok, b1, out1) ∧
      (ok, rb_contents b1, out1) = bq_read (rb_contents (RingBuffer.mk [6, 2, 3, 4, 5] 5 1 3)) 0) :=
  ⟨by decide, by decide,
   (rb_refines_queue (RingBuffer.mk [6, 2, 3, 4, 5] 5 1 3) 7 0 (by decide) (by decide)
      (by decide)).2.2.1,
   (rb_refines_queue (RingBuffer.mk [6, 2, 3, 4, 5] 5 1 3) 7 0 (by decide) (by decide)
      (by decide)).2.2.2⟩

/-! ## Drain and fill loops -/

/-- C15. Drain and fill loops terminate with exact counts: on a state with
capacity `c ≥ 2`, cursors in range and `c` slots holding
`n = (writeIndex - readIndex) mod c` unread values, the read loop, given more
than `n` calls of fuel, stops after exactly `n` accepted reads with the buffer
empty and `readIndex = writeIndex =` the `writeIndex` at the start, and a
further read is rejected; the write loop, given more than `c - 1 - n` calls of
fuel, stops after exactly `c - 1 - n` accepted writes with the buffer full; from
`rb_new 5`, after writing 1, 2, 3 and reading once, the read loop ends with
`readIndex = writeIndex = 3`. -/
theorem rb_loops_terminate (b : RingBuffer) (out i : Int) (fd fw : Nat) (_hc : 2 ≤ b.capacity)
    (hr : InRange b) (hs : Shaped b)
    (hfd : (b.writeIndex - b.readIndex) % b.capacity < fd)
    (hfw : b.capacity - 1 - (b.writeIndex - b.readIndex) % b.capacity < fw) :
    (∃ b1 out1, read_until_empty fd b out
        = .ok (some (((b.writeIndex - b.readIndex) % b.capacity).toNat, b1, out1)) ∧
      rb_is_empty b1 = true ∧ b1.readIndex = b.writeIndex ∧ b1.writeIndex = b.writeIndex ∧
      rb_read b1 out1 = .ok (false, b1, out1)) ∧
    (∃ b2, write_until_full fw b i
        = .ok (some ((b.capacity - 1 - (b.writeIndex - b.readIndex) % b.capacity).toNat, b2)) ∧
      rb_is_full b2 = .ok true) ∧
    (rb_run (rb_new 5) 0 [Op.write 1, Op.write 2, Op.write 3, Op.read]
        = .ok ([Event.wrote 1 true, Event.wrote 2 true, Event.wrote 3 true, Event.readOut true 1],
               RingBuffer.mk [1, 2, 3, 0, 0] 5 3 1, 1) ∧
      read_until_empty 3 (RingBuffer.mk [1, 2, 3, 0, 0] 5 3 1) 1
        = .ok (some (2, RingBuffer.mk [1, 2, 3, 0, 0] 5 3 3, 3)) ∧
      rb_read (RingBuffer.mk [1, 2, 3, 0, 0] 5 3 3) 3
        = .ok (false, RingBuffer.mk [1, 2, 3, 0, 0] 5 3 3, 3)) := by
  have hbd := rb_count_bounds b hr
  have hcount : rb_count b = (b.writeIndex - b.readIndex) % b.capacity := rfl
  rw [← hcount] at hfd hfw ⊢
  refine ⟨?_, ?_, by decide⟩
  · obtain ⟨b1, out1, hloop, h1, h2, _, _⟩ :=
      read_until_empty_spec (rb_count b).toNat b out fd hr hs (by omega) (by omega)
    have he : rb_is_empty b1 = true := by
      simp [rb_is_empty, h1, h2]
    refine ⟨b1, out1, hloop, he, h1, h2, ?_⟩
    simp [rb_read, he, pure, Except.pure]
  · obtain ⟨b2, hloop, hfull, _, _⟩ :=
      write_until_full_spec (b.capacity - 1 - rb_count b).toNat b i fw hr hs (by omega) (by omega)
    exact ⟨b2, hloop, hfull⟩

theorem rb_loops_terminate_witness :
    (2 ≤ (RingBuffer.mk [6, 2, 3, 4, 5] 5 0 3).capacity ∧
      InRange (RingBuffer.mk [6, 2, 3, 4, 5] 5 0 3) ∧ Shaped (RingBuffer.mk [6, 2, 3, 4, 5] 5 0 3) ∧
      ((0 : Int) - 3) % 5 < (3 : Nat) ∧ (5 : Int) - 1 - ((0 : Int) - 3) % 5 < (3 : Nat)) ∧
    (∃ b1 out1, read_until_empty 3 (RingBuffer.mk [6, 2, 3, 4, 5] 5 0 3) 0
        = .ok (some ((((0 : Int) - 3) % 5).toNat, b1, out1)) ∧
      rb_is_empty b1 = true ∧ b1.readIndex = 0 ∧ b1.writeIndex = 0 ∧
      rb_read b1 out1 = .ok (false, b1, out1)) ∧
    (∃ b2, write_until_full 3 (RingBuffer.mk [6, 2, 3, 4, 5] 5 0 3) 7
        = .ok (some (((5 : Int) - 1 - ((0 : Int) - 3) % 5).toNat, b2)) ∧
      rb_is_full b2 = .ok true) :=
  ⟨by decide,
   (rb_loops_terminate (RingBuffer.mk [6, 2, 3, 4, 5] 5 0 3) 0 7 3 3 (by decide) (by decide)
      (by decide) (by decide) (by decide)).1,
   (rb_loops_terminate (RingBuffer.mk [6, 2, 3, 4, 5] 5 0 3) 0 7 3 3 (by decide) (by decide)
      (by decide) (by decide) (by decide)).2.1⟩

/-! ## Garbage against unread values -/

/-- C11 as stated fails: after four accepted writes into `rb_new 5` the buffer is
full, slot 4 was never written (its flag is `false`, it still holds the 0 of
`rb_new`), and `rb_value_is_garbage` returns `false` for it. -/
theorem rb_garbage_full_counterexample :
    rb_run (rb_new 5) 0 [Op.write 1, Op.write 2, Op.write 3, Op.write 4]
      = .ok ([Event.wrote 1 true, Event.wrote 2 true, Event.wrote 3 true, Event.wrote 4 true],
             RingBuffer.mk [1, 2, 3, 4, 0] 5 4 0, 0) ∧
    rb_track (rb_new 5) 0 (List.replicate 5 false)
        [Op.write 1, Op.write 2, Op.write 3, Op.write 4]
      = .ok (RingBuffer.mk [1, 2, 3, 4, 0] 5 4 0, 0, [true, true, true, true, false]) ∧
    rb_is_full (RingBuffer.mk [1, 2, 3, 4, 0] 5 4 0) = .ok true ∧
    ([true, true, true, true, false] : List Bool).getD 4 false = false ∧
    rb_value_is_garbage (RingBuffer.mk [1, 2, 3, 4, 0] 5 4 0) 4 = .ok false := by
  decide

/-- C11, amended. For `c ≥ 2`, in every state reached from `rb_new c` and for
every index `i` in `[0, c)` other than `writeIndex` of a full buffer,
`rb_value_is_garbage` returns `true` iff slot `i` holds no value that was
written and not yet read; when the buffer is full, the slots holding such a
value are exactly those other than the one at `writeIndex`. -/
theorem rb_garbage_iff_not_live (c : Int) (hc : 2 ≤ c) (ops : List Op) (out : Int) :
    ∃ evs b out1 live, rb_run (rb_new c) out ops = .ok (evs, b, out1) ∧
      rb_track (rb_new c) out (List.replicate c.toNat false) ops = .ok (b, out1, live) ∧
      (∀ i : Int, 0 ≤ i → i < c → ¬ (rb_is_full b = .ok true ∧ i = b.writeIndex) →
        rb_value_is_garbage b i = .ok (!(live.getD i.toNat false))) ∧
      (rb_is_full b = .ok true → ∀ i : Int, 0 ≤ i → i < c →
        (live.getD i.toNat false = true ↔ i ≠ b.writeIndex)) := by
  obtain ⟨evs, b, out1, live, hrun, htr, h1, hcap, hlen, hflags⟩ :=
    rb_track_inv ops (rb_new c) out (List.replicate c.toNat false)
      (rb_new_inRange c (by omega)) (rb_new_shaped c (by omega)) (liveInv_new c (by omega))
  have hcap1 : b.capacity = c := hcap
  have hfull := rb_is_full_eq b h1
  have hfc := full_iff_count b h1
  have hcnt := rb_count_eq b h1
  have hbd := rb_count_bounds b h1
  refine ⟨evs, b, out1, live, hrun, htr, ?_, ?_⟩
  · intro i hi0 hi hnot
    have hib : i < b.capacity := by omega
    rw [rb_value_is_garbage_eq b i h1 hi0 hib, hflags i hi0 hib]
    obtain ⟨hw0, hw, hr0, hr⟩ := h1
    have hx := emod_diff i b.readIndex b.capacity hi0 hib hr0 hr
    congr 1
    by_cases hz : rb_count b = 0
    · rw [if_pos hz, hz]
      have : ¬ (i - b.readIndex) % b.capacity < 0 := by
        rw [hx]; split_ifs <;> omega
      simp [this]
    · rw [if_neg hz]
      by_cases hf : rb_count b = b.capacity - 1
      · rw [if_pos hf]
        have hiw : i ≠ b.writeIndex := by
          intro hiw
          apply hnot
          refine ⟨?_, hiw⟩
          rw [hfull]
          simp [hfc.mpr hf]
        have : (i - b.readIndex) % b.capacity < rb_count b := by
          rw [hx, hcnt]
          rw [hcnt] at hf
          split_ifs at hf ⊢ <;> omega
        simp [this]
      · rw [if_neg hf, Bool.eq_iff_iff]
        simp only [decide_eq_true_eq, Bool.not_eq_true', decide_eq_false_iff_not, not_lt]
  · intro hf i hi0 hi
    have hib : i < b.capacity := by omega
    have hf1 : rb_count b = b.capacity - 1 := by
      apply hfc.mp
      rw [hfull] at hf
      simpa using hf
    rw [hflags i hi0 hib, decide_eq_true_eq]
    obtain ⟨hw0, hw, hr0, hr⟩ := h1
    have hx := emod_diff i b.readIndex b.capacity hi0 hib hr0 hr
    rw [hx, hcnt]
    rw [hcnt] at hf1
    split_ifs at hf1 ⊢ <;> omega

theorem rb_garbage_iff_not_live_witness :
    (2 : Int) ≤ 3 ∧
    ∃ evs b out1 live, rb_run (rb_new 3) 0 [Op.write 7, Op.read, Op.write 8] = .ok (evs, b, out1) ∧
      rb_track (rb_new 3) 0 (List.replicate (3 : Int).toNat false) [Op.write 7, Op.read, Op.write 8]
        = .ok (b, out1, live) ∧
      (∀ i : Int, 0 ≤ i → i < 3 → ¬ (rb_is_full b = .ok true ∧ i = b.writeIndex) →
        rb_value_is_garbage b i = .ok (!(live.getD i.toNat false))) ∧
      (rb_is_full b = .ok true → ∀ i : Int, 0 ≤ i → i < 3 →
        (live.getD i.toNat false = true ↔ i ≠ b.writeIndex)) :=
  ⟨by decide, rb_garbage_iff_not_live 3 (by decide) _ 0⟩

end RingBufferC
